import Mathlib

/-!
Verification of the Markdown/frontmatter core of the obsidian-wp-publisher
plugin (file src/markdown-converter.ts).

The development shallowly embeds the three exported functions
- extractContent    (frontmatter codec, extract direction)
- updateFrontmatter (frontmatter codec, merge/serialize direction)
- markdownToHtml    (Markdown-to-HTML transducer)
as total Lean functions over String / List Char, mirroring the source's
JavaScript regular-expression passes step by step, and proves the spec's
claims about them.

Conventions:
- JS strings are modelled as List Char (the field String.data); top-level
  functions take and return String.
- JS regex semantics (lazy and greedy quantifiers, the dot's exclusion of
  line terminators, the character classes \w and \s) are modelled
  explicitly where the source's patterns use them.
- JS numbers are modelled exactly: values produced by Number(string) on a
  numeric literal are rationals whose denominator divides a power of ten
  (or an infinity); rendering matches the JS template-string form on the
  integral and short-decimal range the plugin exercises.
-/

/-! ## Character classes used by the source's regexes -/

/-- The characters of the JS regex class \\s (whitespace). -/
def jsSpaceChars : List Char :=
  [' ', '\t', '\n', '\x0b', '\x0c', '\r', '\u00a0', '\u1680',
   '\u2000', '\u2001', '\u2002', '\u2003', '\u2004', '\u2005', '\u2006',
   '\u2007', '\u2008', '\u2009', '\u200a',
   '\u2028', '\u2029', '\u202f', '\u205f', '\u3000', '\ufeff']

/-- The JS regex class \\s (whitespace), as used by trim(), \\s* and \\s+. -/
def isJsSpace (c : Char) : Bool := jsSpaceChars.contains c

/-- ASCII decimal digit, the JS regex class \d. -/
def isDigitCh (c : Char) : Bool := '0' ≤ c && c ≤ '9'

/-- The JS regex class \w (word character). -/
def isWordChar (c : Char) : Bool :=
  ('a' ≤ c && c ≤ 'z') || ('A' ≤ c && c ≤ 'Z') || isDigitCh c || c = '_'

/-- Characters the JS regex dot `.` does NOT match (line terminators). -/
def isLineTerm (c : Char) : Bool :=
  c = '\n' || c = '\r' || c = ' ' || c = ' '

/-- A string is "dot-clean" when every character is matchable by `.`. -/
def dotClean (l : List Char) : Bool := l.all (fun c => !isLineTerm c)

/-- JS String.prototype.trim on a character list. -/
def jsTrim (l : List Char) : List Char :=
  ((l.dropWhile isJsSpace).reverse.dropWhile isJsSpace).reverse

/-- The backtick character (code point 96). -/
def btick : Char := Char.ofNat 96

/-- The double-quote character. -/
def dqCh : Char := '"'

/-- The single-quote character (code point 39). -/
def sqCh : Char := Char.ofNat 39

/-! ## JS numbers: Number(string) and template-string rendering -/

/-- A JS number value that can result from a non-NaN Number(string)
coercion of a numeric literal: a rational (denominator dividing a power of
ten for decimal literals, 1 for hex/octal/binary) or an infinity. -/
inductive JsNumber where
  | fin (q : ℚ)
  | posInf
  | negInf
deriving DecidableEq, Repr

/-- Accumulate decimal digit characters, most significant first. -/
def natFromChars (l : List Char) : ℕ :=
  l.foldl (fun a c => 10 * a + (c.toNat - 48)) 0

/-- Digit character for a digit value below ten. -/
def digitCh (d : ℕ) : Char := Char.ofNat (48 + d)

/-- Decimal digit string of a natural number (JS renders integers this
way below 10^21). -/
def natToChars (n : ℕ) : List Char :=
  if n = 0 then ['0'] else ((Nat.digits 10 n).map digitCh).reverse

/-- Decimal digit string of an integer. -/
def intToChars (i : ℤ) : List Char :=
  if i < 0 then '-' :: natToChars i.natAbs else natToChars i.natAbs

/-- Hexadecimal digit test. -/
def isHexDigit (c : Char) : Bool :=
  isDigitCh c || ('a' ≤ c && c ≤ 'f') || ('A' ≤ c && c ≤ 'F')

/-- Hexadecimal digit value. -/
def hexVal (c : Char) : ℕ :=
  if isDigitCh c then c.toNat - 48
  else if 'a' ≤ c && c ≤ 'f' then c.toNat - 87
  else c.toNat - 55

/-- Parse a full non-empty digit string in the given base; none when a
character is out of range or the string is empty. -/
def parseNatBase (base : ℕ) (pred : Char → Bool) (val : Char → ℕ)
    (l : List Char) : Option ℕ :=
  if l ≠ [] && l.all pred then
    some (l.foldl (fun a c => base * a + val c) 0)
  else none

/-- Parse the mantissa of a StrDecimalLiteral: digits, digits.digits,
digits., or .digits; returns its rational value and the rest. -/
def parseDecMantissa (l : List Char) : Option (ℚ × List Char) :=
  let ip := l.takeWhile isDigitCh
  let r := l.drop ip.length
  match r with
  | '.' :: r2 =>
    let fp := r2.takeWhile isDigitCh
    if ip = [] && fp = [] then none
    else some ((natFromChars ip : ℚ) + (natFromChars fp : ℚ) / 10 ^ fp.length,
               r2.drop fp.length)
  | _ => if ip = [] then none else some ((natFromChars ip : ℚ), r)

/-- Parse an unsigned StrDecimalLiteral (mantissa with optional exponent);
the whole input must be consumed. -/
def parseUnsignedDec (l : List Char) : Option ℚ :=
  match parseDecMantissa l with
  | none => none
  | some (m, r) =>
    match r with
    | [] => some m
    | c :: r2 =>
      if c = 'e' || c = 'E' then
        let (sgn, r3) : ℤ × List Char :=
          match r2 with
          | '+' :: t => (1, t)
          | '-' :: t => (-1, t)
          | t => (1, t)
        let ds := r3.takeWhile isDigitCh
        if ds ≠ [] && r3.drop ds.length = [] then
          some (m * (10 : ℚ) ^ (sgn * (natFromChars ds : ℤ)))
        else none
      else none

/-- Unsigned numeric literal body: Infinity or a decimal literal. -/
def parseUnsignedNum (l : List Char) : Option JsNumber :=
  if l = "Infinity".data then some .posInf
  else (parseUnsignedDec l).map .fin

/-- Negate a JS number. -/
def jsNeg : JsNumber → JsNumber
  | .fin q => .fin (-q)
  | .posInf => .negInf
  | .negInf => .posInf

/-- Model of JS Number(string): some value when the coercion is not NaN.
Trims whitespace; empty trims to +0; supports sign + decimal literal,
sign + Infinity, and unsigned 0x/0o/0b literals. -/
def jsParseNumber (l0 : List Char) : Option JsNumber :=
  let l := jsTrim l0
  if l = [] then some (.fin 0) else
  match l with
  | '+' :: r => parseUnsignedNum r
  | '-' :: r => (parseUnsignedNum r).map jsNeg
  | '0' :: c :: r =>
    if c = 'x' || c = 'X' then
      (parseNatBase 16 isHexDigit hexVal r).map (fun n => .fin (n : ℚ))
    else if c = 'o' || c = 'O' then
      (parseNatBase 8 (fun d => '0' ≤ d && d ≤ '7') (fun d => d.toNat - 48) r).map
        (fun n => .fin (n : ℚ))
    else if c = 'b' || c = 'B' then
      (parseNatBase 2 (fun d => d = '0' || d = '1') (fun d => d.toNat - 48) r).map
        (fun n => .fin (n : ℚ))
    else parseUnsignedNum l
  | _ => parseUnsignedNum l

/-- Left-pad a digit string with zeros to the given width. -/
def padZeros (k : ℕ) (l : List Char) : List Char :=
  List.replicate (k - l.length) '0' ++ l

/-- Model of the JS template-string rendering of a number. Integers render
as their decimal form; finite non-integers as their exact terminating
decimal expansion (every value jsParseNumber produces has a denominator
dividing a power of ten, so the fallback branch is unreachable for such
values). -/
def jsNumToChars : JsNumber → List Char
  | .posInf => "Infinity".data
  | .negInf => "-Infinity".data
  | .fin q =>
    if q = 0 then ['0'] else
    let sign : List Char := if q < 0 then ['-'] else []
    let a := q.num.natAbs
    let b := q.den
    if b = 1 then sign ++ natToChars a
    else
      match (List.range 64).find? (fun k => 10 ^ k % b = 0) with
      | some k =>
        let scaled := a * 10 ^ k / b
        sign ++ natToChars (scaled / 10 ^ k) ++ '.' ::
          padZeros k (natToChars (scaled % 10 ^ k))
      | none => sign ++ natToChars a ++ '/' :: natToChars b

/-! ## Frontmatter data model -/

/-- A frontmatter value: boolean, number, string, or list of strings
(src/markdown-converter.ts stores these in a Record keyed by string). -/
inductive FmValue where
  | bool (b : Bool)
  | num (n : JsNumber)
  | str (s : String)
  | list (items : List String)
deriving DecidableEq, Repr

/-- An ordered string-keyed map, the model of a JS object's own
enumerable entries in insertion order. -/
abbrev FmMap := List (String × FmValue)

/-- JS property assignment obj[k] = v: updates in place when the key
exists (keeping its position), otherwise appends. -/
def objAssign (m : FmMap) (k : String) (v : FmValue) : FmMap :=
  if m.any (fun p => p.1 = k) then
    m.map (fun p => if p.1 = k then (k, v) else p)
  else m ++ [(k, v)]

/-- JS object spread merge, as in the source's marged object literal:
start from the first map and assign each entry of the second in order. -/
def mergeMap (f u : FmMap) : FmMap :=
  u.foldl (fun m p => objAssign m p.1 p.2) f

/-! ## extractContent: the frontmatter regex and line patterns -/

/-- First index at which pat occurs in l, as a lazy regex subexpression
would find it. -/
def findSub (pat : List Char) : List Char → Option ℕ
  | [] => if pat.isPrefixOf [] then some 0 else none
  | c :: t =>
    if pat.isPrefixOf (c :: t) then some 0
    else (findSub pat t).map (· + 1)

/-- Model of matching content against the anchored frontmatter pattern
(three dashes, newline, lazy body, newline, three dashes, optional
newline): returns (block, remainder after the whole match) on success. -/
def splitFrontmatter (l : List Char) : Option (List Char × List Char) :=
  match l with
  | '-' :: '-' :: '-' :: '\n' :: rest =>
    match findSub ('\n' :: '-' :: '-' :: '-' :: []) rest with
    | some i =>
      let after := rest.drop (i + 4)
      let after' := match after with
        | '\n' :: t => t
        | t => t
      some (rest.take i, after')
    | none => none
  | _ => none

/-- JS String.prototype.split on the newline character. -/
def splitNl : List Char → List (List Char)
  | [] => [[]]
  | c :: rest =>
    if c = '\n' then [] :: splitNl rest
    else
      match splitNl rest with
      | [] => [[c]]
      | h :: t => (c :: h) :: t

/-- JS Array.prototype.join with newline separator. -/
def joinNl : List (List Char) → List Char
  | [] => []
  | [a] => a
  | a :: b :: t => a ++ '\n' :: joinNl (b :: t)

/-- Index of the last line-terminator character in l, if any. -/
def lastBadIdx (l : List Char) : Option ℕ :=
  match l with
  | [] => none
  | c :: t =>
    match lastBadIdx t with
    | some i => some (i + 1)
    | none => if isLineTerm c then some 0 else none

/-- Model of the key/value line pattern: word characters, a colon,
greedy whitespace, then a dot-only capture to the end of the line.
Because \r (a whitespace character the dot cannot match) may occur in a
line, the match succeeds only when everything up to and including the last
line terminator is whitespace; the captured value is trimmed exactly as
the source trims it. -/
def matchKeyValue (line : List Char) : Option (List Char × List Char) :=
  let k := line.takeWhile isWordChar
  if k = [] then none else
  match line.drop k.length with
  | ':' :: r =>
    match lastBadIdx r with
    | none => some (k, jsTrim r)
    | some i =>
      if (r.take (i + 1)).all isJsSpace then some (k, jsTrim (r.drop (i + 1)))
      else none
  | _ => none

/-- Model of the list-item line pattern: one-plus whitespace, a dash,
one-plus whitespace, then a non-empty dot-only capture to the end of the
line (greedy whitespace backs off by one character when the remainder is
all whitespace, matching the regex engine's backtracking). -/
def matchArrayItem (line : List Char) : Option (List Char) :=
  let w := line.takeWhile isJsSpace
  if w = [] then none else
  match line.drop w.length with
  | '-' :: r =>
    let w2 := r.takeWhile isJsSpace
    if w2 = [] then none else
    let s := r.drop w2.length
    if s = [] then
      match w2.reverse with
      | c :: _ :: _ => if isLineTerm c then none else some [c]
      | _ => none
    else if dotClean s then some s else none
  | _ => none

/-- One layer of surrounding quote stripping, the source's
replace(leading-quote-or-trailing-quote, empty) with the global flag. -/
def stripQuotes (l : List Char) : List Char :=
  let l1 := match l with
    | c :: rest => if c = dqCh || c = sqCh then rest else l
    | [] => []
  match l1.reverse with
  | c :: rest => if c = dqCh || c = sqCh then rest.reverse else l1
  | [] => []

/-- Scalar coercion of a non-empty trimmed value: boolean literals first,
then anything Number() does not map to NaN, else a quote-stripped string. -/
def coerceScalar (v : List Char) : FmValue :=
  if v = "true".data then .bool true
  else if v = "false".data then .bool false
  else
    match jsParseNumber v with
    | some j => .num j
    | none => .str ⟨stripQuotes v⟩

/-- Parse state of the line loop: the map built so far, the current key,
and the pending list (JS currentArray, none modelling null). -/
structure PState where
  map : FmMap
  curKey : String
  curArr : Option (List String)
deriving DecidableEq, Repr

/-- Flush the pending list into the map, guarded exactly like the JS
truthiness test (non-null array — an empty one is truthy — and a
non-empty current key). -/
def flushArr (s : PState) : FmMap :=
  match s.curArr with
  | some a => if s.curKey ≠ "" then objAssign s.map s.curKey (.list a) else s.map
  | none => s.map

/-- One iteration of the source's for-loop over frontmatter lines. -/
def processLine (s : PState) (line : List Char) : PState :=
  match matchKeyValue line with
  | some (k, v) =>
    let m := flushArr s
    if v = [] then ⟨m, ⟨k⟩, some []⟩
    else ⟨objAssign m ⟨k⟩ (coerceScalar v), ⟨k⟩, none⟩
  | none =>
    match matchArrayItem line with
    | some item =>
      match s.curArr with
      | some a => ⟨s.map, s.curKey, some (a ++ [⟨stripQuotes item⟩])⟩
      | none => s
    | none => s

/-- Run the line loop from a given state. -/
def processLines (s : PState) (lines : List (List Char)) : PState :=
  lines.foldl processLine s

/-- Parse a frontmatter block: split on newlines, run the loop from the
empty state, and flush the last pending list. -/
def parseFmBlock (block : List Char) : FmMap :=
  flushArr (processLines ⟨[], "", none⟩ (splitNl block))

/-- Result of extractContent: the body and the metadata map. -/
structure ExtractResult where
  content : String
  frontmatter : FmMap
deriving DecidableEq, Repr

/-- Model of extractContent: match the anchored frontmatter pattern; on
failure return the input unchanged with an empty map, otherwise parse the
enclosed block and return the remainder after the match. -/
def extractContent (content : String) : ExtractResult :=
  match splitFrontmatter content.data with
  | none => ⟨content, []⟩
  | some (block, rest) => ⟨⟨rest⟩, parseFmBlock block⟩

/-! ## updateFrontmatter: merge and serialization -/

/-- The template-string form of a scalar value. -/
def scalarChars : FmValue → List Char
  | .bool true => "true".data
  | .bool false => "false".data
  | .num n => jsNumToChars n
  | .str s => s.data
  | .list _ => []

/-- Lines pushed for one entry of the merged map: list values render a
bare key line plus one two-space-dash line per item; strings containing a
colon render quoted; all other scalars render unquoted. -/
def renderEntry (p : String × FmValue) : List (List Char) :=
  match p.2 with
  | .list items =>
    (p.1.data ++ [':']) :: items.map (fun it => ' ' :: ' ' :: '-' :: ' ' :: it.data)
  | .str s =>
    if s.data.contains ':' then
      [p.1.data ++ ':' :: ' ' :: dqCh :: s.data ++ [dqCh]]
    else [p.1.data ++ ':' :: ' ' :: s.data]
  | v => [p.1.data ++ ':' :: ' ' :: scalarChars v]

/-- The serialized frontmatter block: the opening dashes line, the entry
lines, the closing dashes line and a trailing empty line, joined by
newlines (the frontmatter-rendering step of updateFrontmatter). -/
def frontmatterBlock (m : FmMap) : String :=
  ⟨joinNl (("---".data :: m.flatMap renderEntry) ++ ["---".data, []])⟩

/-- Model of updateFrontmatter: extract, spread-merge the updates over the
existing map, rebuild the delimiter block and prepend it to the body. -/
def updateFrontmatter (content : String) (updates : FmMap) : String :=
  let r := extractContent content
  let nf := mergeMap r.frontmatter updates
  ⟨joinNl (("---".data :: nf.flatMap renderEntry) ++ ["---".data, []]) ++
    r.content.data⟩

/-! ## markdownToHtml: the rewrite passes -/

/-- Generic left-to-right global regex replace: at each position try the
matcher; on a match emit the replacement and continue after the matched
text (the value n encodes a consumed length of n + 1, so progress is
guaranteed); otherwise copy one character. The replacement itself is not
rescanned, exactly like JS String.prototype.replace with the g flag. -/
def scanReplF (f : List Char → Option (List Char × ℕ)) : ℕ → List Char → List Char
  | _, [] => []
  | 0, l => l
  | fu + 1, c :: cs =>
    match f (c :: cs) with
    | some (rep, n) => rep ++ scanReplF f fu (cs.drop n)
    | none => c :: scanReplF f fu cs

/-- Global replace over a whole string; the fuel of one per character is
enough because every match consumes at least one character. -/
def scanRepl (f : List Char → Option (List Char × ℕ)) (l : List Char) : List Char :=
  scanReplF f l.length l

/-- Apply a per-line rewrite to every line, the model of a multiline
anchored regex whose matches never contain a newline. -/
def lineMapPass (g : List Char → List Char) (l : List Char) : List Char :=
  joinNl ((splitNl l).map g)

/-- Model of the tail pattern one-plus-whitespace then a non-empty dot
capture to end of line, shared by the header, blockquote and list-item
line patterns (same backtracking rule as the array-item pattern). -/
def matchWsRest (r : List Char) : Option (List Char) :=
  let w := r.takeWhile isJsSpace
  if w = [] then none else
  let s := r.drop w.length
  if s = [] then
    match w.reverse with
    | c :: _ :: _ => if isLineTerm c then none else some [c]
    | _ => none
  else if dotClean s then some s else none

/-- Header line rewrite for a given hash count. -/
def headerLine (n : ℕ) (openT closeT : List Char) (line : List Char) : List Char :=
  if (List.replicate n '#').isPrefixOf line then
    match matchWsRest (line.drop n) with
    | some cap => openT ++ cap ++ closeT
    | none => line
  else line

/-- Matcher for a symmetric delimiter pair with lazy non-empty dot-only
content, e.g. the bold and italic patterns. -/
def findClose (d : List Char) : List Char → Option ℕ
  | [] => none
  | c :: cs =>
    if isLineTerm c then none
    else if d.isPrefixOf cs then some 1
    else (findClose d cs).map (· + 1)

/-- Delimiter-pair replacement: open tag, lazy content, close tag. -/
def matchDelim (d openT closeT : List Char) (l : List Char) :
    Option (List Char × ℕ) :=
  if d.isPrefixOf l then
    (findClose d (l.drop d.length)).map fun j =>
      (openT ++ (l.drop d.length).take j ++ closeT, 2 * d.length + j - 1)
  else none

/-- Matcher for the inline-code pattern: a backtick, one-plus
non-backticks (newlines included), a backtick. -/
def matchInlineCode (l : List Char) : Option (List Char × ℕ) :=
  match l with
  | c :: r =>
    if c = btick then
      let s := r.takeWhile (fun x => x ≠ btick)
      if s ≠ [] && r.drop s.length ≠ [] then
        some ("<code>".data ++ s ++ "</code>".data, s.length + 1)
      else none
    else none
  | [] => none

/-- Sequential entity escaping applied to fenced code content: ampersand,
angle brackets, double quote, apostrophe, in the source's order. -/
def escapeHtml (l : List Char) : List Char :=
  let p := fun (c : Char) (rep : String) (x : List Char) =>
    scanRepl (fun s => match s with
      | c0 :: _ => if c0 = c then some (rep.data, 0) else none
      | [] => none) x
  p sqCh "&#039;" (p dqCh "&quot;" (p '>' "&gt;" (p '<' "&lt;" (p '&' "&amp;" l))))

/-- Matcher for the fenced code block pattern: three backticks, an
optional word-character language tag, a newline, lazy any-character
content, three closing backticks; the replacement trims and escapes the
content and adds a language class when a tag is present. -/
def matchCodeBlock (l : List Char) : Option (List Char × ℕ) :=
  if [btick, btick, btick].isPrefixOf l then
    let r := l.drop 3
    let lang := r.takeWhile isWordChar
    match r.drop lang.length with
    | '\n' :: body =>
      (findSub [btick, btick, btick] body).map fun i =>
        let langCls : List Char :=
          if lang ≠ [] then " class=\"language-".data ++ lang ++ [dqCh] else []
        ("<pre><code".data ++ langCls ++ '>' :: escapeHtml (jsTrim (body.take i)) ++
          "</code></pre>".data,
         3 + lang.length + 1 + i + 3 - 1)
    | _ => none
  else none

/-- Blockquote line rewrite. -/
def bqLine (line : List Char) : List Char :=
  match line with
  | '>' :: r =>
    match matchWsRest r with
    | some cap => "<blockquote>".data ++ cap ++ "</blockquote>".data
    | none => line
  | _ => line

/-- Literal global replacement matcher. -/
def matchLit (pat rep : List Char) (l : List Char) : Option (List Char × ℕ) :=
  if pat ≠ [] && pat.isPrefixOf l then some (rep, pat.length - 1) else none

/-- Horizontal-rule line rewrite: the whole line is three or more of one
of dash, asterisk, underscore. -/
def hrLine (line : List Char) : List Char :=
  if 3 ≤ line.length &&
     (line.all (· = '-') || line.all (· = '*') || line.all (· = '_')) then
    "<hr>".data
  else line

/-- Matcher for the link pattern: bracketed non-empty text immediately
followed by parenthesised non-empty url. -/
def matchLink (l : List Char) : Option (List Char × ℕ) :=
  match l with
  | '[' :: r =>
    let text := r.takeWhile (· ≠ ']')
    if text = [] then none else
    match r.drop text.length with
    | ']' :: '(' :: r2 =>
      let url := r2.takeWhile (· ≠ ')')
      if url = [] then none else
      match r2.drop url.length with
      | ')' :: _ =>
        some ("<a href=\"".data ++ url ++ "\">".data ++ text ++ "</a>".data,
              1 + text.length + 2 + url.length + 1 - 1)
      | _ => none
    | _ => none
  | _ => none

/-- Matcher for the image pattern: bang, bracketed possibly-empty alt
text, parenthesised non-empty url. -/
def matchImage (l : List Char) : Option (List Char × ℕ) :=
  match l with
  | '!' :: '[' :: r =>
    let alt := r.takeWhile (· ≠ ']')
    match r.drop alt.length with
    | ']' :: '(' :: r2 =>
      let url := r2.takeWhile (· ≠ ')')
      if url = [] then none else
      match r2.drop url.length with
      | ')' :: _ =>
        some ("<img src=\"".data ++ url ++ "\" alt=\"".data ++ alt ++ "\">".data,
              2 + alt.length + 2 + url.length + 1 - 1)
      | _ => none
    | _ => none
  | _ => none

/-- Unordered-list item line rewrite: asterisk or dash, whitespace, text. -/
def ulLine (line : List Char) : List Char :=
  match line with
  | c :: r =>
    if c = '*' || c = '-' then
      match matchWsRest r with
      | some cap => "<li>".data ++ cap ++ "</li>".data
      | none => line
    else line
  | [] => line

/-- One list-item unit of the wrapping pattern: li open tag, greedy
dot-only content ending at the last closing li tag on the line, then an
optional newline; returns the consumed length. -/
def matchLiUnit (l : List Char) : Option ℕ :=
  if "<li>".data.isPrefixOf l then
    let seg := (l.drop 4).takeWhile (· ≠ '\n')
    match (List.range (seg.length + 1)).filterMap
        (fun i => if "</li>".data.isPrefixOf (seg.drop i) then some i else none)
        |>.getLast? with
    | some i =>
      let base := 4 + i + 5
      match l.drop base with
      | '\n' :: _ => some (base + 1)
      | _ => some base
    | none => none
  else none

/-- Total length of a maximal run of list-item units starting here. -/
def liRunLen (fuel : ℕ) (l : List Char) : ℕ :=
  match fuel with
  | 0 => 0
  | f + 1 =>
    match matchLiUnit l with
    | some n => if n = 0 then 0 else n + liRunLen f (l.drop n)
    | none => 0

/-- Matcher wrapping a run of list items in an unordered-list element
(the replacement is the matched text itself inside ul tags). -/
def matchLiRun (l : List Char) : Option (List Char × ℕ) :=
  let total := liRunLen l.length l
  if total = 0 then none
  else some ("<ul>".data ++ l.take total ++ "</ul>".data, total - 1)

/-- Ordered-list item line rewrite: digits, a dot, whitespace, text. -/
def olLine (line : List Char) : List Char :=
  let d := line.takeWhile isDigitCh
  if d = [] then line else
  match line.drop d.length with
  | '.' :: r =>
    match matchWsRest r with
    | some cap => "<li>".data ++ cap ++ "</li>".data
    | none => line
  | _ => line

/-- Paragraph line rewrite: a non-empty dot-only line not beginning with
an angle bracket followed by a lowercase letter is wrapped. -/
def pLine (line : List Char) : List Char :=
  if line = [] then line
  else if !dotClean line then line
  else
    match line with
    | '<' :: c :: _ => if 'a' ≤ c && c ≤ 'z' then line else
        "<p>".data ++ line ++ "</p>".data
    | _ => "<p>".data ++ line ++ "</p>".data

/-- Matcher collapsing a run of two or more newlines to exactly two. -/
def matchNlRun (l : List Char) : Option (List Char × ℕ) :=
  match l with
  | '\n' :: '\n' :: _ =>
    some (['\n', '\n'], (l.takeWhile (· = '\n')).length - 1)
  | _ => none

/-- The ordered rewrite pipeline of markdownToHtml, in source order. -/
def mdPipeline (l : List Char) : List Char :=
  let h := l
  let h := lineMapPass (headerLine 6 "<h6>".data "</h6>".data) h
  let h := lineMapPass (headerLine 5 "<h5>".data "</h5>".data) h
  let h := lineMapPass (headerLine 4 "<h4>".data "</h4>".data) h
  let h := lineMapPass (headerLine 3 "<h3>".data "</h3>".data) h
  let h := lineMapPass (headerLine 2 "<h2>".data "</h2>".data) h
  let h := lineMapPass (headerLine 1 "<h1>".data "</h1>".data) h
  let h := scanRepl (matchDelim "***".data "<strong><em>".data "</em></strong>".data) h
  let h := scanRepl (matchDelim "**".data "<strong>".data "</strong>".data) h
  let h := scanRepl (matchDelim "*".data "<em>".data "</em>".data) h
  let h := scanRepl (matchDelim "___".data "<strong><em>".data "</em></strong>".data) h
  let h := scanRepl (matchDelim "__".data "<strong>".data "</strong>".data) h
  let h := scanRepl (matchDelim "_".data "<em>".data "</em>".data) h
  let h := scanRepl (matchDelim "~~".data "<del>".data "</del>".data) h
  let h := scanRepl matchInlineCode h
  let h := scanRepl matchCodeBlock h
  let h := lineMapPass bqLine h
  let h := scanRepl (matchLit "</blockquote>\n<blockquote>".data "\n".data) h
  let h := lineMapPass hrLine h
  let h := scanRepl matchLink h
  let h := scanRepl matchImage h
  let h := lineMapPass ulLine h
  let h := scanRepl matchLiRun h
  let h := lineMapPass olLine h
  let h := lineMapPass pLine h
  let h := scanRepl (matchLit "<p></p>".data [] ) h
  let h := scanRepl matchNlRun h
  jsTrim h

/-- Model of markdownToHtml. -/
def markdownToHtml (markdown : String) : String :=
  ⟨mdPipeline markdown.data⟩

/-! ## Predicates for canonical (round-trippable) maps -/

/-- True when the frontmatter pattern matches at the start of the text. -/
def hasFrontmatter (content : String) : Bool :=
  (splitFrontmatter content.data).isSome

/-- A good edge character for a plain string: not whitespace, not a
quote (leading/trailing whitespace is trimmed away and a leading/trailing
quote is stripped by the codec, so either would break the round-trip). -/
def goodEdge (c : Char) : Bool := !isJsSpace c && !(c = dqCh) && !(c = sqCh)

/-- A plain scalar string: non-empty with good edges, not a boolean
literal, not numeric, colon-free (so it renders unquoted), and free of
line terminators. -/
def plainScalarStr (l : List Char) : Bool :=
  (match l with | c :: _ => goodEdge c | [] => false) &&
  (match l.reverse with | c :: _ => goodEdge c | [] => false) &&
  !(l = "true".data : Bool) && !(l = "false".data : Bool) &&
  (jsParseNumber l).isNone && !l.contains ':' && dotClean l

/-- A plain list item: non-empty, no leading whitespace or edge quotes,
free of line terminators (trailing whitespace is preserved by the item
pattern and so is allowed). -/
def plainListItem (l : List Char) : Bool :=
  (match l with | c :: _ => goodEdge c | [] => false) &&
  (match l.reverse with | c :: _ => !(c = dqCh) && !(c = sqCh) | [] => false) &&
  dotClean l

/-- A canonical value: rendering it and re-parsing the rendered line
gives the value back. Numbers are restricted to integers in the range
where JS doubles are exact. -/
def canonicalValue : FmValue → Bool
  | .bool _ => true
  | .num (.fin q) => q.den = 1 && decide (q.num.natAbs ≤ 2 ^ 53)
  | .num _ => false
  | .str s => plainScalarStr s.data
  | .list items => items.all (fun it => plainListItem it.data)

/-- A non-empty word-character key. -/
def wordKeyB (k : String) : Bool := !k.data.isEmpty && k.data.all isWordChar

/-- A canonical map: distinct word keys and canonical values. -/
def canonicalMap (m : FmMap) : Prop :=
  (m.map Prod.fst).Nodup ∧
    ∀ p ∈ m, wordKeyB p.1 = true ∧ canonicalValue p.2 = true

instance : DecidablePred canonicalMap := fun m =>
  inferInstanceAs (Decidable (_ ∧ _))

/-! ## Character-class disjointness facts -/

/-- A whitespace character is not a word character. -/
theorem space_not_word {c : Char} (h : isJsSpace c = true) : isWordChar c = false := by
  have hc : c ∈ jsSpaceChars := by
    have := h
    simp only [isJsSpace, List.contains_eq_any_beq, List.any_eq_true] at this
    obtain ⟨x, hx, hxc⟩ := this
    exact (beq_iff_eq.mp hxc) ▸ hx
  fin_cases hc <;> decide

/-- A word character is not whitespace. -/
theorem word_not_space {c : Char} (h : isWordChar c = true) : isJsSpace c = false := by
  by_contra hc
  have := space_not_word (c := c) (by simpa using Bool.not_eq_false _ |>.mp hc)
  simp [this] at h

/-- A word character is not a line terminator. -/
theorem word_not_lineterm {c : Char} (h : isWordChar c = true) : isLineTerm c = false := by
  by_contra hc
  have hc' : isLineTerm c = true := by simpa using Bool.not_eq_false _ |>.mp hc
  have : ((c = '\n' ∨ c = '\r') ∨ c = '\u2028') ∨ c = '\u2029' := by
    simpa [isLineTerm] using hc'
  rcases this with ((h1 | h1) | h1) | h1 <;> subst h1 <;> revert h <;> decide

/-! ## Structure lemmas about the serialized block -/

/-- Unfolding joinNl at a cons with a non-empty tail. -/
theorem joinNl_cons_ne (a : List Char) (X : List (List Char)) (h : X ≠ []) :
    joinNl (a :: X) = a ++ '\n' :: joinNl X := by
  cases X with
  | nil => exact absurd rfl h
  | cons b t => rfl

/-- Joining lines that end with a final line and an empty line flattens to
each line followed by a newline. -/
theorem joinNl_tail (E : List (List Char)) (d : List Char) :
    joinNl (E ++ [d, []]) = (E.flatMap (fun ln => ln ++ ['\n'])) ++ d ++ ['\n'] := by
  induction E with
  | nil => simp [joinNl]
  | cons h t ih =>
    rw [List.cons_append, joinNl_cons_ne h (t ++ [d, []]) (by simp), ih]
    simp

/-- Joining the delimiter lines and entry lines flattens to an opening
dashes-newline, each entry line followed by a newline, and a closing
dashes-newline. -/
theorem joinNl_block (E : List (List Char)) :
    joinNl (("---".data :: E) ++ ["---".data, []]) =
      "---\n".data ++ (E.flatMap (fun ln => ln ++ ['\n'])) ++ "---\n".data := by
  rw [List.cons_append, joinNl_cons_ne _ _ (by simp), joinNl_tail]
  simp

/-- updateFrontmatter is the serialized merged block followed by the
extracted body. -/
theorem updateFrontmatter_eq (text : String) (u : FmMap) :
    updateFrontmatter text u =
      frontmatterBlock (mergeMap (extractContent text).frontmatter u) ++
        (extractContent text).content := by
  rfl

/-- The serialized block in flattened form. -/
theorem frontmatterBlock_eq (m : FmMap) :
    frontmatterBlock m =
      ⟨"---\n".data ++ ((m.flatMap renderEntry).flatMap (fun ln => ln ++ ['\n'])) ++
        "---\n".data⟩ := by
  have h := joinNl_block (m.flatMap renderEntry)
  simp only [frontmatterBlock, h]

/-! ## Claim theorems: concrete and structural -/

/-- C7: on the document with wp_status and wp_tags frontmatter,
extractContent returns the metadata map with the draft status and the two
tags and the body Hello **world**, and markdownToHtml on that body yields
a paragraph with a strong element. -/
theorem end_to_end_scenario :
    extractContent "---\nwp_status: draft\nwp_tags:\n  - a\n  - b\n---\nHello **world**" =
      ⟨"Hello **world**",
       [("wp_status", .str "draft"), ("wp_tags", .list ["a", "b"])]⟩ ∧
    markdownToHtml "Hello **world**" = "<p>Hello <strong>world</strong></p>" := by
  constructor
  · decide
  · decide

/-- C2 (evaluation at the failing input): a js-tagged fence containing a
script tag is NOT escaped: the inline-code pass consumes a backtick pair
out of each fence before the fenced-block pass runs, so the fenced-block
branch never fires; the script tag survives verbatim and no
language-class code element is produced. -/
theorem code_fence_script_eval :
    markdownToHtml "```js\n<script>\n```" =
      "<p>``<code>js</p>\n<script>\n<p></code>``</p>" ∧
    ("<script>".data <:+: (markdownToHtml "```js\n<script>\n```").data) ∧
    ¬ ("&lt;script&gt;".data <:+: (markdownToHtml "```js\n<script>\n```").data) ∧
    ¬ ("language-js".data <:+: (markdownToHtml "```js\n<script>\n```").data) := by
  refine ⟨by decide, by decide, by decide, by decide⟩

/-- C3: for every text and update map, updateFrontmatter's output is the
serialized block — opening dashes line, entry lines, closing dashes line
and its newline — followed byte-for-byte by exactly the body that
extractContent returns for the original text; merge never alters body
content. -/
theorem merge_preserves_body (text : String) (u : FmMap) :
    ∃ entries : List Char,
      updateFrontmatter text u =
        ⟨"---\n".data ++ entries ++
          ("---\n".data ++ (extractContent text).content.data)⟩ := by
  refine ⟨((mergeMap (extractContent text).frontmatter u).flatMap renderEntry).flatMap
    (fun ln => ln ++ ['\n']), ?_⟩
  rw [updateFrontmatter_eq, frontmatterBlock_eq]
  show String.mk _ = String.mk _
  simp

/-- C10: for every text and updates map the output of updateFrontmatter is
the opening dashes line, the (possibly empty) entry lines and a closing
dashes line joined with newlines, ahead of the extracted body; in
particular with no frontmatter and no updates the block of bare
delimiters is still prepended. -/
theorem merge_always_delimits :
    (∀ (text : String) (u : FmMap), ∃ L : List (List Char),
      updateFrontmatter text u =
        ⟨joinNl (("---".data :: L) ++ ["---".data, []]) ++
          (extractContent text).content.data⟩) ∧
    updateFrontmatter "x" [] = "---\n---\nx" ∧
    updateFrontmatter "" [] = "---\n---\n" := by
  refine ⟨fun text u => ⟨(mergeMap (extractContent text).frontmatter u).flatMap renderEntry, rfl⟩,
    by decide, by decide⟩

/-- C1 (counterexample): the claimed round-trip fails for the map with the
plain colon-free string value 5: its serialization re-parses with a
numeric value, not the original string. -/
theorem roundtrip_plain_string_cex :
    extractContent (frontmatterBlock [("a", FmValue.str "5")] ++ "") ≠
      ⟨"", [("a", FmValue.str "5")]⟩ ∧
    extractContent (frontmatterBlock [("a", FmValue.str "5")] ++ "") =
      ⟨"", [("a", FmValue.num (.fin 5))]⟩ := by
  refine ⟨by decide, by decide⟩

/-- C4 (counterexample): a key line with an empty value and no following
item lines is NOT dropped: the parsed map maps it to an empty list,
because the source's truthiness guard on the pending array accepts an
empty array. -/
theorem empty_key_dropped_cex :
    (extractContent "---\na:\n---\nX").frontmatter = [("a", FmValue.list [])] := by
  decide

/-- C6 (counterexample): with empty text and two empty (hence disjoint)
update maps, merging twice duplicates the delimiter block — the inner
output's bare delimiters do not re-match the frontmatter pattern — while a
single merge of the union produces one block. -/
theorem merge_merge_cex :
    updateFrontmatter (updateFrontmatter "" []) [] ≠
      updateFrontmatter "" ([] ++ []) ∧
    updateFrontmatter (updateFrontmatter "" []) [] = "---\n---\n---\n---\n" ∧
    updateFrontmatter "" ([] ++ []) = "---\n---\n" := by
  refine ⟨by decide, by decide, by decide⟩

/-- C5 (counterexample): a line of three asterisks does not become a rule
element: the italic pass rewrites it first. -/
theorem hr_star_cex :
    markdownToHtml "***" ≠ "<hr>" ∧ markdownToHtml "***" = "<em>*</em>" ∧
    markdownToHtml "___" = "<em>_</em>" := by
  refine ⟨by decide, by decide, by decide⟩

/-- A decimal digit character is not whitespace. -/
theorem digit_not_space {c : Char} (h : isDigitCh c = true) : isJsSpace c = false := by
  by_contra hc
  have hc' : isJsSpace c = true := by simpa using Bool.not_eq_false _ |>.mp hc
  have hm : c ∈ jsSpaceChars := by
    have := hc'
    simp only [isJsSpace, List.contains_eq_any_beq, List.any_eq_true] at this
    obtain ⟨x, hx, hxc⟩ := this
    exact (beq_iff_eq.mp hxc) ▸ hx
  fin_cases hm <;> revert h <;> decide

/-- A decimal digit character is not a line terminator. -/
theorem digit_not_lineterm {c : Char} (h : isDigitCh c = true) : isLineTerm c = false := by
  by_contra hc
  have hc' : isLineTerm c = true := by simpa using Bool.not_eq_false _ |>.mp hc
  have : ((c = '\n' ∨ c = '\r') ∨ c = '\u2028') ∨ c = '\u2029' := by
    simpa [isLineTerm] using hc'
  rcases this with ((h1 | h1) | h1) | h1 <;> subst h1 <;> revert h <;> decide

/-- takeWhile over an append whose left part all satisfies the predicate
and whose right part starts with a failing character. -/
theorem takeWhile_all_append {p : Char → Bool} {l : List Char} (c : Char)
    (r : List Char) (hl : l.all p = true) (hc : p c = false) :
    (l ++ c :: r).takeWhile p = l := by
  induction l with
  | nil => simp [List.takeWhile_cons, hc]
  | cons x t ih =>
    simp only [List.all_cons, Bool.and_eq_true] at hl
    simp [List.takeWhile_cons, hl.1, ih hl.2]

/-- lastBadIdx finds nothing in a dot-clean string. -/
theorem lastBadIdx_none {r : List Char} (h : dotClean r = true) :
    lastBadIdx r = none := by
  induction r with
  | nil => rfl
  | cons c t ih =>
    simp only [dotClean, List.all_cons, Bool.and_eq_true] at h
    have ht : lastBadIdx t = none := ih (by simp [dotClean, h.2])
    simp only [lastBadIdx, ht]
    simp [show isLineTerm c = false by simpa using h.1]

/-- Trimming drops a leading whitespace character. -/
theorem jsTrim_cons_space {c : Char} (v : List Char) (h : isJsSpace c = true) :
    jsTrim (c :: v) = jsTrim v := by
  simp [jsTrim, List.dropWhile_cons, h]

/-- A string whose first and last characters are not whitespace trims to
itself. -/
theorem jsTrim_eq_self {l : List Char}
    (h1 : ∀ c, l.head? = some c → isJsSpace c = false)
    (h2 : ∀ c, l.getLast? = some c → isJsSpace c = false) :
    jsTrim l = l := by
  have hd : l.dropWhile isJsSpace = l := by
    cases l with
    | nil => rfl
    | cons c t => simp [List.dropWhile_cons, h1 c rfl]
  have hr : l.reverse.dropWhile isJsSpace = l.reverse := by
    cases hrev : l.reverse with
    | nil => rfl
    | cons c t =>
      have : l.getLast? = some c := by
        rw [← List.head?_reverse, hrev]; rfl
      simp [List.dropWhile_cons, h2 c this]
  simp [jsTrim, hd, hr]

/-- The parts of a word key: non-empty and all word characters. -/
theorem wordKeyB_parts {k : String} (hk : wordKeyB k = true) :
    k.data ≠ [] ∧ k.data.all isWordChar = true := by
  constructor
  · intro h0
    rw [wordKeyB, h0] at hk
    simp at hk
  · rw [wordKeyB, Bool.and_eq_true] at hk
    exact hk.2

/-- The key/value pattern on a rendered scalar line: word key, colon,
space, dot-clean self-trimming value. -/
theorem matchKeyValue_render (k : String) (v : List Char)
    (hk : wordKeyB k = true) (hv : dotClean v = true) (ht : jsTrim v = v) :
    matchKeyValue (k.data ++ ':' :: ' ' :: v) = some (k.data, v) := by
  obtain ⟨hk1, hk2⟩ := wordKeyB_parts hk
  have htw : (k.data ++ ':' :: ' ' :: v).takeWhile isWordChar = k.data :=
    takeWhile_all_append _ _ hk2 (by decide)
  have hbad : lastBadIdx (' ' :: v) = none := by
    apply lastBadIdx_none
    simp only [dotClean, List.all_cons, Bool.and_eq_true]
    exact ⟨by decide, by simpa [dotClean] using hv⟩
  simp only [matchKeyValue, htw, List.drop_left, hbad]
  rw [if_neg (by simpa using hk1)]
  rw [jsTrim_cons_space v (by decide), ht]

/-- The key/value pattern on a rendered bare-key line. -/
theorem matchKeyValue_bare (k : String) (hk : wordKeyB k = true) :
    matchKeyValue (k.data ++ [':']) = some (k.data, []) := by
  obtain ⟨hk1, hk2⟩ := wordKeyB_parts hk
  have htw : (k.data ++ [':']).takeWhile isWordChar = k.data :=
    takeWhile_all_append _ _ hk2 (by decide)
  simp only [matchKeyValue, htw, List.drop_left]
  rw [if_neg (by simpa using hk1)]
  rfl

/-- A line starting with a whitespace character never matches the
key/value pattern. -/
theorem matchKeyValue_space_head {c : Char} (t : List Char)
    (h : isJsSpace c = true) : matchKeyValue (c :: t) = none := by
  have : isWordChar c = false := space_not_word h
  simp [matchKeyValue, List.takeWhile_cons, this]

/-- The array-item pattern on a rendered item line. -/
theorem matchArrayItem_render (it : List Char) (h : plainListItem it = true) :
    matchArrayItem (' ' :: ' ' :: '-' :: ' ' :: it) = some it := by
  simp only [plainListItem, Bool.and_eq_true] at h
  obtain ⟨⟨hhead, _⟩, hclean⟩ := h
  obtain ⟨c, t, rfl⟩ : ∃ c t, it = c :: t := by
    cases it with
    | nil => simp at hhead
    | cons a b => exact ⟨a, b, rfl⟩
  have hcs : isJsSpace c = false := by
    simp only [goodEdge, Bool.and_eq_true, Bool.not_eq_true'] at hhead
    exact hhead.1.1
  have hw : (' ' :: ' ' :: '-' :: ' ' :: c :: t).takeWhile isJsSpace = [' ', ' '] := by
    simp [List.takeWhile_cons, show isJsSpace ' ' = true by decide,
      show isJsSpace '-' = false by decide]
  have hw2 : (' ' :: c :: t).takeWhile isJsSpace = [' '] := by
    simp [List.takeWhile_cons, show isJsSpace ' ' = true by decide, hcs]
  simp only [matchArrayItem, hw]
  simp only [List.length_cons, List.length_nil, List.drop_succ_cons, List.drop_zero]
  simp only [hw2, List.length_cons, List.length_nil, List.drop_succ_cons, List.drop_zero]
  simp [hclean]

/-- Quote stripping is the identity when neither edge is a quote. -/
theorem stripQuotes_id {l : List Char}
    (h1 : ∀ c t, l = c :: t → decide (c = dqCh) = false ∧ decide (c = sqCh) = false)
    (h2 : ∀ c t, l.reverse = c :: t → decide (c = dqCh) = false ∧ decide (c = sqCh) = false) :
    stripQuotes l = l := by
  cases l with
  | nil => rfl
  | cons c t =>
    obtain ⟨hc1, hc2⟩ := h1 c t rfl
    simp only [stripQuotes, hc1, hc2, Bool.or_self, Bool.false_eq_true, if_false]
    cases hr : (c :: t).reverse with
    | nil => simp at hr
    | cons c2 t2 =>
      obtain ⟨hd1, hd2⟩ := h2 c2 t2 hr
      simp only [hr, hd1, hd2, Bool.or_self, Bool.false_eq_true, if_false]

/-! ## Integer rendering and re-parsing round-trip -/

/-- Facts about digit characters of digit values. -/
theorem digitCh_facts : ∀ d < 10, isDigitCh (digitCh d) = true ∧
    (digitCh d).toNat = 48 + d := by decide

/-- The digit string of a natural number is non-empty and all digits. -/
theorem natToChars_digits (n : ℕ) :
    natToChars n ≠ [] ∧ (natToChars n).all isDigitCh = true := by
  unfold natToChars
  by_cases h : n = 0
  · subst h
    exact ⟨by decide, by decide⟩
  · rw [if_neg h]
    constructor
    · simp [List.reverse_eq_nil_iff, Nat.digits_ne_nil_iff_ne_zero.mpr h]
    · rw [List.all_reverse, List.all_eq_true]
      intro c hc
      obtain ⟨d, hd, rfl⟩ := List.mem_map.mp hc
      exact (digitCh_facts d (Nat.digits_lt_base (by norm_num) hd)).1

/-- takeWhile of a list all whose elements satisfy the predicate. -/
theorem takeWhile_all {p : Char → Bool} {l : List Char} (h : l.all p = true) :
    l.takeWhile p = l := by
  induction l with
  | nil => rfl
  | cons c t ih =>
    simp only [List.all_cons, Bool.and_eq_true] at h
    simp [List.takeWhile_cons, h.1, ih h.2]

/-- The digit-accumulating fold inverts the digit-string rendering. -/
theorem foldl_digits (ds : List ℕ) (hds : ∀ d ∈ ds, d < 10) (acc : ℕ) :
    ((ds.map digitCh).reverse).foldl (fun a c => 10 * a + (c.toNat - 48)) acc =
      acc * 10 ^ ds.length + Nat.ofDigits 10 ds := by
  induction ds generalizing acc with
  | nil => simp
  | cons d t ih =>
    have hd := hds d (List.mem_cons_self d t)
    have ht : ∀ x ∈ t, x < 10 := fun x hx => hds x (List.mem_cons_of_mem d hx)
    simp only [List.map_cons, List.reverse_cons, List.foldl_append, List.foldl_cons,
      List.foldl_nil, ih ht acc, Nat.ofDigits_cons, List.length_cons]
    rw [(digitCh_facts d hd).2]
    ring_nf
    omega

/-- Re-parsing the digit string of a natural number. -/
theorem natFromChars_natToChars (n : ℕ) : natFromChars (natToChars n) = n := by
  unfold natFromChars natToChars
  by_cases h : n = 0
  · simp [h]
  · rw [if_neg h]
    rw [foldl_digits _ (fun d hd => Nat.digits_lt_base (by norm_num) hd) 0]
    simp [Nat.ofDigits_digits]

/-- The digit string of a positive natural number does not start with the
zero digit. -/
theorem natToChars_head_ne_zero {n : ℕ} (h : n ≠ 0) :
    ∀ c t, natToChars n = c :: t → c ≠ '0' := by
  intro c t hct
  unfold natToChars at hct
  rw [if_neg h] at hct
  have hne : Nat.digits 10 n ≠ [] := Nat.digits_ne_nil_iff_ne_zero.mpr h
  have hlast := Nat.getLast_digit_ne_zero 10 h
  have hrev : ((Nat.digits 10 n).map digitCh).reverse =
      digitCh ((Nat.digits 10 n).getLast hne) ::
        (((Nat.digits 10 n).dropLast.map digitCh).reverse) := by
    conv_lhs => rw [← List.dropLast_append_getLast hne]
    simp
  rw [hrev] at hct
  have hcd : c = digitCh ((Nat.digits 10 n).getLast hne) := by
    injection hct with h1 _
    exact h1.symm
  have hlt : (Nat.digits 10 n).getLast hne < 10 :=
    Nat.digits_lt_base (by norm_num) (List.getLast_mem hne)
  subst hcd
  have : ∀ d < 10, d ≠ 0 → digitCh d ≠ '0' := by decide
  exact this _ hlt hlast

/-- A digit character is not one of the letters that select a non-decimal
radix, a sign, the capital I of Infinity, a dot or a dash. -/
theorem digit_ne_specials {c : Char} (h : isDigitCh c = true) :
    c ≠ 'x' ∧ c ≠ 'X' ∧ c ≠ 'o' ∧ c ≠ 'O' ∧ c ≠ 'b' ∧ c ≠ 'B' ∧
    c ≠ '+' ∧ c ≠ '-' ∧ c ≠ 'I' ∧ c ≠ '.' ∧ c ≠ 'e' ∧ c ≠ 'E' := by
  refine ⟨?_, ?_, ?_, ?_, ?_, ?_, ?_, ?_, ?_, ?_, ?_, ?_⟩ <;>
    (intro he; subst he; revert h; decide)

/-- The digit string of a natural number parses as a bare mantissa. -/
theorem parseDecMantissa_natToChars (n : ℕ) :
    parseDecMantissa (natToChars n) = some ((n : ℚ), []) := by
  obtain ⟨hne, hall⟩ := natToChars_digits n
  have htw : (natToChars n).takeWhile isDigitCh = natToChars n := takeWhile_all hall
  unfold parseDecMantissa
  rw [htw]
  simp only [List.drop_length]
  simp [hne, natFromChars_natToChars]

/-- The digit string of a natural number parses back as an unsigned
decimal literal. -/
theorem parseUnsignedDec_natToChars (n : ℕ) :
    parseUnsignedDec (natToChars n) = some (n : ℚ) := by
  unfold parseUnsignedDec
  rw [parseDecMantissa_natToChars]

/-- The digit string of a natural number is not the Infinity literal. -/
theorem natToChars_ne_infinity (n : ℕ) : natToChars n ≠ "Infinity".data := by
  obtain ⟨hne, hall⟩ := natToChars_digits n
  obtain ⟨c, t, hct⟩ : ∃ c t, natToChars n = c :: t := by
    cases h : natToChars n with
    | nil => exact absurd h hne
    | cons a b => exact ⟨a, b, rfl⟩
  rw [hct]
  intro hcontra
  have hc : c = 'I' := by
    have h0 := congrArg List.head? hcontra
    simpa using h0
  have hcd : isDigitCh c = true := by
    rw [hct] at hall
    simp only [List.all_cons, Bool.and_eq_true] at hall
    exact hall.1
  subst hc
  revert hcd
  decide

/-- Every character of a natural digit string is a digit, including head
and last. -/
theorem natToChars_all_facts (n : ℕ) :
    (∀ c ∈ natToChars n, isDigitCh c = true) := by
  obtain ⟨_, hall⟩ := natToChars_digits n
  exact fun c hc => List.all_eq_true.mp hall c hc

/-- Digit strings trim to themselves. -/
theorem jsTrim_natToChars (n : ℕ) : jsTrim (natToChars n) = natToChars n := by
  apply jsTrim_eq_self
  · intro c hc
    exact digit_not_space (natToChars_all_facts n c (List.mem_of_mem_head? hc))
  · intro c hc
    exact digit_not_space (natToChars_all_facts n c (List.mem_of_mem_getLast? hc))

/-- Unsigned-literal parsing of a digit string. -/
theorem parseUnsignedNum_natToChars (n : ℕ) :
    parseUnsignedNum (natToChars n) = some (.fin (n : ℚ)) := by
  unfold parseUnsignedNum
  rw [if_neg (natToChars_ne_infinity n), parseUnsignedDec_natToChars]
  rfl

/-- Number coercion of a natural digit string. -/
theorem jsParseNumber_natToChars (n : ℕ) :
    jsParseNumber (natToChars n) = some (.fin (n : ℚ)) := by
  by_cases h0 : n = 0
  · subst h0
    decide
  · obtain ⟨hne, _⟩ := natToChars_digits n
    obtain ⟨c, t, hct⟩ : ∃ c t, natToChars n = c :: t := by
      cases h : natToChars n with
      | nil => exact absurd h hne
      | cons a b => exact ⟨a, b, rfl⟩
    have hcd : isDigitCh c = true := natToChars_all_facts n c (by rw [hct]; simp)
    have hsp := digit_ne_specials hcd
    have hc0 : c ≠ '0' := natToChars_head_ne_zero h0 c t hct
    unfold jsParseNumber
    rw [jsTrim_natToChars, hct]
    rw [if_neg (by simp)]
    split
    · rename_i r heq
      exact absurd (List.cons_eq_cons.mp heq).1 hsp.2.2.2.2.2.2.1
    · rename_i r heq
      exact absurd (List.cons_eq_cons.mp heq).1 hsp.2.2.2.2.2.2.2.1
    · rename_i c1 r heq
      exact absurd (List.cons_eq_cons.mp heq).1 hc0
    · rw [← hct, parseUnsignedNum_natToChars]

/-- The integer digit string trims to itself. -/
theorem jsTrim_intToChars (i : ℤ) : jsTrim (intToChars i) = intToChars i := by
  unfold intToChars
  by_cases hi : i < 0
  · rw [if_pos hi]
    apply jsTrim_eq_self
    · intro c hc
      simp only [List.head?_cons, Option.some.injEq] at hc
      subst hc
      decide
    · intro c hc
      obtain ⟨hne, _⟩ := natToChars_digits i.natAbs
      obtain ⟨a, b, hab⟩ : ∃ a b, natToChars i.natAbs = a :: b := by
        cases h : natToChars i.natAbs with
        | nil => exact absurd h hne
        | cons a b => exact ⟨a, b, rfl⟩
      rw [hab, List.getLast?_cons_cons] at hc
      exact digit_not_space (natToChars_all_facts _ c
        (by rw [hab]; exact List.mem_of_mem_getLast? hc))
  · rw [if_neg hi]
    exact jsTrim_natToChars _

/-- Number coercion of an integer digit string. -/
theorem jsParseNumber_intToChars (i : ℤ) :
    jsParseNumber (intToChars i) = some (.fin (i : ℚ)) := by
  by_cases hi : i < 0
  · have hit : intToChars i = '-' :: natToChars i.natAbs := by
      unfold intToChars
      rw [if_pos hi]
    unfold jsParseNumber
    rw [jsTrim_intToChars, hit]
    rw [if_neg (by simp)]
    split
    · rename_i r heq
      exact absurd (List.cons_eq_cons.mp heq).1 (by decide)
    · rename_i r heq
      have hr : natToChars i.natAbs = r := (List.cons_eq_cons.mp heq).2
      rw [← hr, parseUnsignedNum_natToChars]
      have hcast : ((i.natAbs : ℚ)) = -(i : ℚ) := by
        rw [Int.cast_natAbs]
        exact_mod_cast abs_of_neg hi
      simp [jsNeg, hcast]
    · rename_i c1 r heq
      exact absurd (List.cons_eq_cons.mp heq).1 (by decide)
    · rename_i h1 h2 h3
      exact absurd rfl (h2 (natToChars i.natAbs))
  · have hit : intToChars i = natToChars i.natAbs := by
      unfold intToChars
      rw [if_neg hi]
    rw [hit, jsParseNumber_natToChars]
    have hcast : ((i.natAbs : ℚ)) = (i : ℚ) := by
      rw [Int.cast_natAbs]
      exact_mod_cast abs_of_nonneg (not_lt.mp hi)
    rw [hcast]

/-- Rendering an integral rational is rendering its numerator. -/
theorem jsNumToChars_den_one {q : ℚ} (h : q.den = 1) :
    jsNumToChars (.fin q) = intToChars q.num := by
  by_cases hq : q = 0
  · subst hq
    decide
  · simp only [jsNumToChars, intToChars]
    rw [if_neg hq, if_pos h]
    by_cases hneg : q < 0
    · rw [if_pos hneg, if_pos (Rat.num_neg.mpr hneg)]
      rfl
    · rw [if_neg hneg, if_neg (fun hc => hneg (Rat.num_neg.mp hc))]
      rfl

/-- Every character of an integer digit string is a dash or a digit. -/
theorem intToChars_chars (i : ℤ) :
    ∀ c ∈ intToChars i, c = '-' ∨ isDigitCh c = true := by
  intro c hc
  unfold intToChars at hc
  by_cases hi : i < 0
  · rw [if_pos hi] at hc
    rcases List.mem_cons.mp hc with h | h
    · exact Or.inl h
    · exact Or.inr (natToChars_all_facts _ c h)
  · rw [if_neg hi] at hc
    exact Or.inr (natToChars_all_facts _ c hc)

/-- Integer digit strings contain no line terminators. -/
theorem dotClean_intToChars (i : ℤ) : dotClean (intToChars i) = true := by
  rw [dotClean, List.all_eq_true]
  intro c hc
  rcases intToChars_chars i c hc with h | h
  · subst h; decide
  · simp [digit_not_lineterm h]

/-- An integer digit string is non-empty with a dash-or-digit head. -/
theorem intToChars_head (i : ℤ) :
    ∃ c t, intToChars i = c :: t ∧ (c = '-' ∨ isDigitCh c = true) := by
  obtain ⟨hne, _⟩ := natToChars_digits i.natAbs
  unfold intToChars
  by_cases hi : i < 0
  · rw [if_pos hi]
    exact ⟨'-', _, rfl, Or.inl rfl⟩
  · rw [if_neg hi]
    obtain ⟨c, t, hct⟩ : ∃ c t, natToChars i.natAbs = c :: t := by
      cases h : natToChars i.natAbs with
      | nil => exact absurd h hne
      | cons a b => exact ⟨a, b, rfl⟩
    exact ⟨c, t, hct, Or.inr (natToChars_all_facts _ c (by rw [hct]; simp))⟩

/-- An integer digit string is not a boolean literal. -/
theorem intToChars_ne_bool (i : ℤ) :
    intToChars i ≠ "true".data ∧ intToChars i ≠ "false".data := by
  obtain ⟨c, t, hct, hc⟩ := intToChars_head i
  have hbad : c ≠ 't' ∧ c ≠ 'f' := by
    rcases hc with h0 | h0
    · subst h0; exact ⟨by decide, by decide⟩
    · exact ⟨fun he => by subst he; revert h0; decide,
             fun he => by subst he; revert h0; decide⟩
  constructor
  · rw [hct]
    intro hcontra
    exact hbad.1 (by have h0 := congrArg List.head? hcontra; simpa using h0)
  · rw [hct]
    intro hcontra
    exact hbad.2 (by have h0 := congrArg List.head? hcontra; simpa using h0)

/-- Scalar coercion maps an integer digit string to its number. -/
theorem coerceScalar_intToChars (i : ℤ) :
    coerceScalar (intToChars i) = .num (.fin (i : ℚ)) := by
  obtain ⟨hb1, hb2⟩ := intToChars_ne_bool i
  unfold coerceScalar
  rw [if_neg hb1, if_neg hb2, jsParseNumber_intToChars]

/-- Unpacked parts of a plain scalar string. -/
theorem plainScalarStr_parts {l : List Char} (h : plainScalarStr l = true) :
    (∃ c t, l = c :: t ∧ goodEdge c = true) ∧
    (∃ c t, l.reverse = c :: t ∧ goodEdge c = true) ∧
    l ≠ "true".data ∧ l ≠ "false".data ∧ jsParseNumber l = none ∧
    l.contains ':' = false ∧ dotClean l = true := by
  simp only [plainScalarStr, Bool.and_eq_true] at h
  obtain ⟨⟨⟨⟨⟨⟨h1, h2⟩, h3⟩, h4⟩, h5⟩, h6⟩, h7⟩ := h
  refine ⟨?_, ?_, ?_, ?_, ?_, ?_, h7⟩
  · cases hl : l with
    | nil => rw [hl] at h1; simp at h1
    | cons c t => exact ⟨c, t, rfl, by rw [hl] at h1; exact h1⟩
  · cases hl : l.reverse with
    | nil => rw [hl] at h2; simp at h2
    | cons c t => exact ⟨c, t, rfl, by rw [hl] at h2; exact h2⟩
  · simpa using h3
  · simpa using h4
  · simpa [Option.isNone_iff_eq_none] using h5
  · simpa using h6

/-- A good edge character is not whitespace and not a quote. -/
theorem goodEdge_parts {c : Char} (h : goodEdge c = true) :
    isJsSpace c = false ∧ decide (c = dqCh) = false ∧ decide (c = sqCh) = false := by
  simp only [goodEdge, Bool.and_eq_true, Bool.not_eq_true'] at h
  exact ⟨h.1.1, h.1.2, h.2⟩

/-- The four facts needed about the rendered form of a canonical scalar:
non-empty, dot-clean, self-trimming, and coercing back to the value. -/
theorem canonical_scalar_facts {v : FmValue} (hv : canonicalValue v = true)
    (hnl : ∀ items, v ≠ .list items) :
    scalarChars v ≠ [] ∧ dotClean (scalarChars v) = true ∧
    jsTrim (scalarChars v) = scalarChars v ∧
    coerceScalar (scalarChars v) = v := by
  cases v with
  | list items => exact absurd rfl (hnl items)
  | bool b => cases b <;> exact ⟨by decide, by decide, by decide, by decide⟩
  | num j =>
    cases j with
    | posInf => simp [canonicalValue] at hv
    | negInf => simp [canonicalValue] at hv
    | fin q =>
      have hden : q.den = 1 := by
        simp only [canonicalValue, Bool.and_eq_true, decide_eq_true_eq] at hv
        exact hv.1
      have hs : scalarChars (.num (.fin q)) = intToChars q.num := by
        simp [scalarChars, jsNumToChars_den_one hden]
      rw [hs]
      obtain ⟨c, t, hct, _⟩ := intToChars_head q.num
      refine ⟨by rw [hct]; simp, dotClean_intToChars _, jsTrim_intToChars _, ?_⟩
      rw [coerceScalar_intToChars]
      congr 1
      rw [JsNumber.fin.injEq]
      exact (Rat.den_eq_one_iff q).mp hden
  | str s =>
    have hp : plainScalarStr s.data = true := by simpa [canonicalValue] using hv
    obtain ⟨⟨c, t, hct, hgc⟩, ⟨c2, t2, hrev, hgc2⟩, hb1, hb2, hnum, _, hclean⟩ :=
      plainScalarStr_parts hp
    have hnil : s.data ≠ [] := by rw [hct]; simp
    refine ⟨hnil, hclean, ?_, ?_⟩
    · apply jsTrim_eq_self
      · intro c0 hc0
        simp only [scalarChars] at hc0
        rw [hct] at hc0
        simp only [List.head?_cons, Option.some.injEq] at hc0
        subst hc0
        exact (goodEdge_parts hgc).1
      · intro c0 hc0
        simp only [scalarChars] at hc0
        rw [← List.head?_reverse, hrev] at hc0
        simp only [List.head?_cons, Option.some.injEq] at hc0
        subst hc0
        exact (goodEdge_parts hgc2).1
    · show coerceScalar s.data = .str s
      unfold coerceScalar
      rw [if_neg hb1, if_neg hb2, hnum]
      have hsq : stripQuotes s.data = s.data := by
        apply stripQuotes_id
        · intro c0 t0 h0
          rw [hct] at h0
          obtain ⟨h1, -⟩ := List.cons_eq_cons.mp h0.symm
          subst h1
          obtain ⟨-, hq1, hq2⟩ := goodEdge_parts hgc
          exact ⟨hq1, hq2⟩
        · intro c0 t0 h0
          rw [hrev] at h0
          obtain ⟨h1, -⟩ := List.cons_eq_cons.mp h0.symm
          subst h1
          obtain ⟨-, hq1, hq2⟩ := goodEdge_parts hgc2
          exact ⟨hq1, hq2⟩
      rw [hsq]

/-- Rendered lines of a canonical scalar entry. -/
theorem renderEntry_scalar (k : String) {v : FmValue} (hv : canonicalValue v = true)
    (hnl : ∀ items, v ≠ .list items) :
    renderEntry (k, v) = [k.data ++ ':' :: ' ' :: scalarChars v] := by
  cases v with
  | list items => exact absurd rfl (hnl items)
  | bool b => rfl
  | num j => rfl
  | str s =>
    have hp : plainScalarStr s.data = true := by simpa [canonicalValue] using hv
    obtain ⟨-, -, -, -, -, hcol, -⟩ := plainScalarStr_parts hp
    simp only [renderEntry, hcol, Bool.false_eq_true, if_false, scalarChars]

/-- Processing a rendered canonical scalar line: flush the pending list,
append the entry, clear the pending state. -/
theorem processLine_scalar (m : FmMap) (ck : String) (pending : Option (List String))
    (k : String) (v : FmValue) (hk : wordKeyB k = true)
    (hv : canonicalValue v = true) (hnl : ∀ items, v ≠ .list items) :
    processLine ⟨m, ck, pending⟩ (k.data ++ ':' :: ' ' :: scalarChars v) =
      ⟨objAssign (flushArr ⟨m, ck, pending⟩) k v, k, none⟩ := by
  obtain ⟨hne, hclean, htrim, hco⟩ := canonical_scalar_facts hv hnl
  unfold processLine
  rw [matchKeyValue_render k _ hk hclean htrim]
  simp only [hne, if_false]
  rw [hco]

/-- Processing a rendered bare-key line: flush the pending list and open
a fresh pending list for the key. -/
theorem processLine_bare (m : FmMap) (ck : String) (pending : Option (List String))
    (k : String) (hk : wordKeyB k = true) :
    processLine ⟨m, ck, pending⟩ (k.data ++ [':']) =
      ⟨flushArr ⟨m, ck, pending⟩, k, some []⟩ := by
  unfold processLine
  rw [matchKeyValue_bare k hk]
  rfl

/-- Processing rendered item lines accumulates the items in order. -/
theorem processLines_items (items : List String)
    (hit : ∀ it ∈ items, plainListItem it.data = true) :
    ∀ (m : FmMap) (ck : String) (arr : List String),
    processLines ⟨m, ck, some arr⟩
        (items.map (fun it => ' ' :: ' ' :: '-' :: ' ' :: it.data)) =
      ⟨m, ck, some (arr ++ items)⟩ := by
  induction items with
  | nil => intro m ck arr; simp [processLines]
  | cons it t ih =>
    intro m ck arr
    have hit0 := hit it (List.mem_cons_self it t)
    have hitt : ∀ x ∈ t, plainListItem x.data = true :=
      fun x hx => hit x (List.mem_cons_of_mem it hx)
    have hstrip : stripQuotes it.data = it.data := by
      simp only [plainListItem, Bool.and_eq_true] at hit0
      obtain ⟨⟨hh, hl⟩, -⟩ := hit0
      apply stripQuotes_id
      · intro c0 t0 h0
        rw [h0] at hh
        obtain ⟨-, hq1, hq2⟩ := goodEdge_parts hh
        exact ⟨hq1, hq2⟩
      · intro c0 t0 h0
        rw [h0] at hl
        simp only [Bool.and_eq_true, Bool.not_eq_true'] at hl
        exact ⟨by simpa using hl.1, by simpa using hl.2⟩
    have hline : processLine ⟨m, ck, some arr⟩ (' ' :: ' ' :: '-' :: ' ' :: it.data) =
        ⟨m, ck, some (arr ++ [it])⟩ := by
      unfold processLine
      rw [matchKeyValue_space_head _ (by decide), matchArrayItem_render it.data hit0]
      simp [hstrip]
    show processLines _ (_ :: _) = _
    unfold processLines at *
    simp only [List.map_cons, List.foldl_cons, hline]
    rw [ih hitt m ck (arr ++ [it])]
    simp

/-- A flushed state with no pending list is just its map. -/
theorem flushArr_none (m : FmMap) (ck : String) : flushArr ⟨m, ck, none⟩ = m := rfl

/-- Flushing a pending list under a non-empty key assigns it. -/
theorem flushArr_some (m : FmMap) (ck : String) (a : List String) (h : ck ≠ "") :
    flushArr ⟨m, ck, some a⟩ = objAssign m ck (.list a) := by
  simp [flushArr, h]

/-- Assignment of an absent key appends the entry. -/
theorem objAssign_not_mem {m : FmMap} {k : String} (v : FmValue)
    (h : ∀ p ∈ m, p.1 ≠ k) : objAssign m k v = m ++ [(k, v)] := by
  unfold objAssign
  have hany : (m.any fun p => p.1 = k) = false := by
    rw [Bool.eq_false_iff]
    intro hc
    rw [List.any_eq_true] at hc
    obtain ⟨p, hp, he⟩ := hc
    exact h p hp (by simpa using he)
  simp only [hany, Bool.false_eq_true, if_false]

/-- A non-empty word key is not the empty string. -/
theorem wordKeyB_ne_empty {k : String} (hk : wordKeyB k = true) : k ≠ "" := by
  obtain ⟨h1, -⟩ := wordKeyB_parts hk
  intro hc
  subst hc
  exact h1 rfl

/-- Running the line loop over the rendered lines of a canonical map
appends exactly that map to the flushed state. -/
theorem processLines_render (M : FmMap) :
    ∀ (acc : FmMap) (ck : String) (pending : Option (List String)),
    canonicalMap M →
    (∀ p ∈ M, ∀ q ∈ flushArr ⟨acc, ck, pending⟩, q.1 ≠ p.1) →
    flushArr (processLines ⟨acc, ck, pending⟩ (M.flatMap renderEntry)) =
      flushArr ⟨acc, ck, pending⟩ ++ M := by
  induction M with
  | nil =>
    intro acc ck pending _ _
    simp [processLines]
  | cons p M' ih =>
    intro acc ck pending hcan hdisj
    obtain ⟨k, v⟩ := p
    have hnd : ((k :: M'.map Prod.fst)).Nodup := by
      have := hcan.1
      simpa using this
    have hknotM' : ∀ q ∈ M', q.1 ≠ k := by
      intro q hq hc
      exact (List.nodup_cons.mp hnd).1 (hc ▸ List.mem_map_of_mem Prod.fst hq)
    have hcan' : canonicalMap M' :=
      ⟨(List.nodup_cons.mp hnd).2,
       fun q hq => hcan.2 q (List.mem_cons_of_mem _ hq)⟩
    obtain ⟨hk, hv⟩ := hcan.2 (k, v) (List.mem_cons_self _ _)
    have hknotin : ∀ q ∈ flushArr ⟨acc, ck, pending⟩, q.1 ≠ k :=
      fun q hq => hdisj (k, v) (List.mem_cons_self _ _) q hq
    have hdisj' : ∀ p ∈ M',
        ∀ q ∈ flushArr ⟨acc, ck, pending⟩ ++ [(k, v)], q.1 ≠ p.1 := by
      intro p hp q hq
      rcases List.mem_append.mp hq with h | h
      · exact hdisj p (List.mem_cons_of_mem _ hp) q h
      · have : q = (k, v) := by simpa using h
        subst this
        exact fun hc => hknotM' p hp hc.symm
    rw [List.flatMap_cons]
    unfold processLines
    rw [List.foldl_append]
    by_cases hnl : ∀ items, v ≠ FmValue.list items
    · rw [renderEntry_scalar k hv hnl]
      simp only [List.foldl_cons, List.foldl_nil]
      rw [processLine_scalar acc ck pending k v hk hv hnl]
      have hoa : objAssign (flushArr ⟨acc, ck, pending⟩) k v =
          flushArr ⟨acc, ck, pending⟩ ++ [(k, v)] := objAssign_not_mem _ hknotin
      have hih := ih (objAssign (flushArr ⟨acc, ck, pending⟩) k v) k none hcan'
        (by rw [flushArr_none, hoa]; exact hdisj')
      unfold processLines at hih
      rw [hih, flushArr_none, hoa]
      simp
    · obtain ⟨items, rfl⟩ : ∃ items, v = FmValue.list items := by
        push_neg at hnl
        exact hnl
      have hitems : ∀ it ∈ items, plainListItem it.data = true := by
        simp only [canonicalValue, List.all_eq_true] at hv
        exact fun it hit => hv it hit
      have hre : renderEntry (k, FmValue.list items) =
          (k.data ++ [':']) ::
            items.map (fun it => ' ' :: ' ' :: '-' :: ' ' :: it.data) := rfl
      rw [hre]
      simp only [List.foldl_cons]
      rw [processLine_bare acc ck pending k hk]
      have hfold := processLines_items items hitems (flushArr ⟨acc, ck, pending⟩) k []
      unfold processLines at hfold
      rw [hfold]
      have hstate : flushArr ⟨flushArr ⟨acc, ck, pending⟩, k, some ([] ++ items)⟩ =
          flushArr ⟨acc, ck, pending⟩ ++ [(k, FmValue.list items)] := by
        rw [List.nil_append]
        rw [flushArr_some _ _ _ (wordKeyB_ne_empty hk)]
        exact objAssign_not_mem _ hknotin
      have hih := ih (flushArr ⟨acc, ck, pending⟩) k (some ([] ++ items)) hcan'
        (by rw [hstate]; exact hdisj')
      unfold processLines at hih
      rw [hih, hstate]
      simp

/-- findSub steps over a non-matching head. -/
theorem findSub_cons_neg (pat : List Char) (c : Char) (t : List Char)
    (h : (pat.isPrefixOf (c :: t)) = false) :
    findSub pat (c :: t) = (findSub pat t).map (· + 1) := by
  conv_lhs => rw [findSub]
  simp [h]

/-- findSub stops at a matching head. -/
theorem findSub_cons_pos (pat : List Char) (c : Char) (t : List Char)
    (h : (pat.isPrefixOf (c :: t)) = true) :
    findSub pat (c :: t) = some 0 := by
  conv_lhs => rw [findSub]
  simp [h]

/-- Searching for newline-dashes skips a newline-free prefix. -/
theorem findSub_skip (x y : List Char) (hx : '\n' ∉ x) :
    findSub ('\n' :: '-' :: '-' :: '-' :: []) (x ++ y) =
      (findSub ('\n' :: '-' :: '-' :: '-' :: []) y).map (· + x.length) := by
  induction x with
  | nil =>
    cases h : findSub ('\n' :: '-' :: '-' :: '-' :: []) y <;> simp [h]
  | cons c t ih =>
    have hc : c ≠ '\n' := fun hcc => hx (hcc ▸ List.mem_cons_self c t)
    have hp : (('\n' :: '-' :: '-' :: '-' :: []).isPrefixOf (c :: (t ++ y))) = false := by
      simp only [List.isPrefixOf]
      simp [beq_eq_false_iff_ne, Ne.symm hc]
    rw [List.cons_append, findSub_cons_neg _ _ _ hp,
      ih (fun hm => hx (List.mem_cons_of_mem c hm))]
    cases h : findSub ('\n' :: '-' :: '-' :: '-' :: []) y with
    | none => simp [h]
    | some j =>
      simp only [h, Option.map_map, Option.map_some, Option.map_some',
        Function.comp_apply, List.length_cons, Option.some.injEq]
      omega

/-- The head of a joined non-empty line list is the head of its first
line. -/
theorem joinNl_head (l2 : List Char) (t : List (List Char)) (c : Char) (r : List Char)
    (h : l2 = c :: r) : ∃ s, joinNl (l2 :: t) = c :: s := by
  cases t with
  | nil => exact ⟨r, by simp [joinNl, h]⟩
  | cons x xs =>
    refine ⟨r ++ '\n' :: joinNl (x :: xs), ?_⟩
    rw [joinNl_cons_ne _ _ (by simp), h]
    simp

/-- In the joined entry lines followed by the closing delimiter, the
first newline-dashes occurrence is exactly at the end of the entries:
lines are newline-free, non-empty and never start with a dash. -/
theorem findSub_entries (L : List (List Char)) (body : List Char)
    (hlines : ∀ ln ∈ L, ∃ c t, ln = c :: t ∧ c ≠ '-' ∧ '\n' ∉ ln) (hL : L ≠ []) :
    findSub ('\n' :: '-' :: '-' :: '-' :: [])
        (joinNl L ++ '\n' :: '-' :: '-' :: '-' :: '\n' :: body) =
      some (joinNl L).length := by
  induction L with
  | nil => exact absurd rfl hL
  | cons l t ih =>
    obtain ⟨c, r, hcr, hcd, hnl⟩ := hlines l (List.mem_cons_self l t)
    cases t with
    | nil =>
      show findSub _ (l ++ _) = _
      rw [findSub_skip l _ hnl]
      rw [findSub_cons_pos _ _ _ (by simp [List.isPrefixOf])]
      simp [joinNl]
    | cons l2 t2 =>
      obtain ⟨c2, r2, hcr2, hcd2, hnl2⟩ := hlines l2 (by simp)
      have hjoin : joinNl (l :: l2 :: t2) = l ++ '\n' :: joinNl (l2 :: t2) := rfl
      rw [hjoin, List.append_assoc]
      rw [findSub_skip l _ hnl]
      obtain ⟨s, hs⟩ := joinNl_head l2 t2 c2 r2 hcr2
      have hpre : (('\n' :: '-' :: '-' :: '-' :: []).isPrefixOf
          ('\n' :: (joinNl (l2 :: t2) ++ '\n' :: '-' :: '-' :: '-' :: '\n' :: body))) = false := by
        rw [hs]
        simp only [List.cons_append, List.isPrefixOf]
        simp [beq_eq_false_iff_ne, Ne.symm hcd2]
      rw [List.cons_append, findSub_cons_neg _ _ _ hpre]
      rw [ih (fun ln hln => hlines ln (List.mem_cons_of_mem l hln)) (by simp)]
      simp only [Option.map_some, Option.map_some', Option.map_map,
        Function.comp_apply, List.length_append, List.length_cons, Option.some.injEq]
      omega

/-- A dot-clean string contains no newline. -/
theorem nl_not_mem_of_dotClean {l : List Char} (h : dotClean l = true) : '\n' ∉ l := by
  intro hm
  have := List.all_eq_true.mp h '\n' hm
  simp only [Bool.not_eq_true'] at this
  exact absurd this (by decide)

/-- A word-character string contains no newline. -/
theorem nl_not_mem_of_word {l : List Char} (h : l.all isWordChar = true) : '\n' ∉ l := by
  intro hm
  have := List.all_eq_true.mp h '\n' hm
  revert this
  decide

/-- Every rendered entry line is non-empty, does not start with a dash
and contains no newline. -/
theorem renderEntry_shape {p : String × FmValue} (hk : wordKeyB p.1 = true)
    (hv : canonicalValue p.2 = true) :
    ∀ ln ∈ renderEntry p, ∃ c t, ln = c :: t ∧ c ≠ '-' ∧ '\n' ∉ ln := by
  obtain ⟨k, v⟩ := p
  obtain ⟨hkne, hkall⟩ := wordKeyB_parts hk
  obtain ⟨kc, kt, hkct⟩ : ∃ c t, k.data = c :: t := by
    cases h : k.data with
    | nil => exact absurd h hkne
    | cons a b => exact ⟨a, b, rfl⟩
  have hkcw : isWordChar kc = true := by
    have := List.all_eq_true.mp hkall kc (by rw [hkct]; simp)
    simpa using this
  have hkcd : kc ≠ '-' := by
    intro he
    subst he
    revert hkcw
    decide
  have hknl : '\n' ∉ k.data := nl_not_mem_of_word hkall
  intro ln hln
  by_cases hnl : ∀ items, v ≠ FmValue.list items
  · rw [renderEntry_scalar k hv hnl] at hln
    obtain ⟨-, hclean, -, -⟩ := canonical_scalar_facts hv hnl
    have hlneq : ln = k.data ++ ':' :: ' ' :: scalarChars v := by simpa using hln
    refine ⟨kc, kt ++ ':' :: ' ' :: scalarChars v, by rw [hlneq, hkct]; simp, hkcd, ?_⟩
    rw [hlneq]
    intro hm
    rcases List.mem_append.mp hm with h | h
    · exact hknl h
    · rcases List.mem_cons.mp h with h2 | h2
      · exact absurd h2.symm (by decide)
      · rcases List.mem_cons.mp h2 with h3 | h3
        · exact absurd h3.symm (by decide)
        · exact nl_not_mem_of_dotClean hclean h3
  · obtain ⟨items, rfl⟩ : ∃ items, v = FmValue.list items := by
      push_neg at hnl
      exact hnl
    have hitems : ∀ it ∈ items, plainListItem it.data = true := by
      simp only [canonicalValue, List.all_eq_true] at hv
      exact fun it hit => hv it hit
    rcases List.mem_cons.mp hln with h | h
    · refine ⟨kc, kt ++ [':'], by rw [h, hkct]; simp, hkcd, ?_⟩
      rw [h]
      intro hm
      rcases List.mem_append.mp hm with h2 | h2
      · exact hknl h2
      · simp at h2
    · obtain ⟨it, hit, hln2⟩ := List.mem_map.mp h
      have hclean : dotClean it.data = true := by
        have := hitems it hit
        simp only [plainListItem, Bool.and_eq_true] at this
        exact this.2
      refine ⟨' ', ' ' :: '-' :: ' ' :: it.data, hln2.symm, by decide, ?_⟩
      rw [← hln2]
      intro hm
      rcases List.mem_cons.mp hm with h2 | h2
      · exact absurd h2.symm (by decide)
      · rcases List.mem_cons.mp h2 with h3 | h3
        · exact absurd h3.symm (by decide)
        · rcases List.mem_cons.mp h3 with h4 | h4
          · exact absurd h4.symm (by decide)
          · rcases List.mem_cons.mp h4 with h5 | h5
            · exact absurd h5.symm (by decide)
            · exact nl_not_mem_of_dotClean hclean h5

/-- A rendered entry always pushes at least one line. -/
theorem renderEntry_ne_nil (p : String × FmValue) : renderEntry p ≠ [] := by
  obtain ⟨k, v⟩ := p
  cases v with
  | list items => simp [renderEntry]
  | str s =>
    simp only [renderEntry]
    split <;> simp
  | bool b => simp [renderEntry]
  | num j => simp [renderEntry]

/-- splitNl of a newline-free string is that single line. -/
theorem splitNl_no_nl {l : List Char} (h : '\n' ∉ l) : splitNl l = [l] := by
  induction l with
  | nil => rfl
  | cons c t ih =>
    have hc : c ≠ '\n' := fun he => h (he ▸ List.mem_cons_self c t)
    have ht := ih (fun hm => h (List.mem_cons_of_mem c hm))
    simp [splitNl, hc, ht]

/-- splitNl distributes over prepending a newline-free prefix. -/
theorem splitNl_prepend {l : List Char} (X : List Char) (h : '\n' ∉ l) :
    ∀ hd tl, splitNl X = hd :: tl → splitNl (l ++ X) = (l ++ hd) :: tl := by
  induction l with
  | nil => intro hd tl hX; simpa using hX
  | cons c t ih =>
    intro hd tl hX
    have hc : c ≠ '\n' := fun he => h (he ▸ List.mem_cons_self c t)
    have ht := ih (fun hm => h (List.mem_cons_of_mem c hm)) hd tl hX
    simp [splitNl, hc, ht]

/-- splitNl inverts joinNl on non-empty newline-free lines. -/
theorem splitNl_joinNl (L : List (List Char)) (hL : L ≠ [])
    (h : ∀ ln ∈ L, '\n' ∉ ln) : splitNl (joinNl L) = L := by
  induction L with
  | nil => exact absurd rfl hL
  | cons l t ih =>
    cases t with
    | nil => exact splitNl_no_nl (h l (List.mem_cons_self l []))
    | cons l2 t2 =>
      have hrest := ih (by simp) (fun ln hln => h ln (List.mem_cons_of_mem l hln))
      have hjoin : joinNl (l :: l2 :: t2) = l ++ '\n' :: joinNl (l2 :: t2) := rfl
      rw [hjoin]
      have hstep : splitNl ('\n' :: joinNl (l2 :: t2)) = [] :: l2 :: t2 := by
        simp [splitNl, hrest]
      rw [splitNl_prepend _ (h l (List.mem_cons_self l _)) _ _ hstep]
      simp

/-- Flattening lines each followed by a newline equals the join plus a
trailing newline (for a non-empty line list). -/
theorem flatMap_nl_joinNl (L : List (List Char)) (hL : L ≠ []) :
    L.flatMap (fun ln => ln ++ ['\n']) = joinNl L ++ ['\n'] := by
  induction L with
  | nil => exact absurd rfl hL
  | cons l t ih =>
    cases t with
    | nil => simp [joinNl]
    | cons l2 t2 =>
      rw [List.flatMap_cons, ih (by simp)]
      have hjoin : joinNl (l :: l2 :: t2) = l ++ '\n' :: joinNl (l2 :: t2) := rfl
      rw [hjoin]
      simp

/-- Extracting a serialized canonical non-empty map prepended to any body
recovers the body and the map exactly. -/
theorem extract_frontmatterBlock (M : FmMap) (body : String)
    (hcan : canonicalMap M) (hne : M ≠ []) :
    extractContent (frontmatterBlock M ++ body) = ⟨body, M⟩ := by
  have hLne : M.flatMap renderEntry ≠ [] := by
    cases M with
    | nil => exact absurd rfl hne
    | cons p t =>
      rw [List.flatMap_cons]
      intro h0
      exact renderEntry_ne_nil p (List.append_eq_nil.mp h0).1
  have hshape : ∀ ln ∈ M.flatMap renderEntry,
      ∃ c t, ln = c :: t ∧ c ≠ '-' ∧ '\n' ∉ ln := by
    intro ln hln
    obtain ⟨p, hp, hpe⟩ := List.mem_flatMap.mp hln
    exact renderEntry_shape (hcan.2 p hp).1 (hcan.2 p hp).2 ln hpe
  set L := M.flatMap renderEntry with hL
  have hdata : (frontmatterBlock M ++ body).data =
      '-' :: '-' :: '-' :: '\n' ::
        (joinNl L ++ '\n' :: '-' :: '-' :: '-' :: '\n' :: body.data) := by
    rw [frontmatterBlock_eq]
    show ("---\n".data ++ (L.flatMap fun ln => ln ++ ['\n']) ++ "---\n".data) ++
      body.data = _
    rw [flatMap_nl_joinNl L hLne]
    simp
  have hfind := findSub_entries L body.data hshape hLne
  have hsplit : splitFrontmatter (frontmatterBlock M ++ body).data =
      some (joinNl L, body.data) := by
    rw [hdata]
    unfold splitFrontmatter
    simp only [hfind]
    have htake : (joinNl L ++ '\n' :: '-' :: '-' :: '-' :: '\n' :: body.data).take
        (joinNl L).length = joinNl L := List.take_left _ _
    have hdrop : (joinNl L ++ '\n' :: '-' :: '-' :: '-' :: '\n' :: body.data).drop
        ((joinNl L).length + 4) = '\n' :: body.data := by
      have : joinNl L ++ '\n' :: '-' :: '-' :: '-' :: '\n' :: body.data =
          (joinNl L ++ ['\n', '-', '-', '-']) ++ '\n' :: body.data := by simp
      rw [this]
      have hlen : (joinNl L ++ ['\n', '-', '-', '-']).length = (joinNl L).length + 4 := by
        simp
      rw [← hlen, List.drop_left]
    rw [htake, hdrop]
    rfl
  unfold extractContent
  rw [hsplit]
  show ExtractResult.mk ⟨body.data⟩ (parseFmBlock (joinNl L)) = ⟨body, M⟩
  have hparse : parseFmBlock (joinNl L) = M := by
    unfold parseFmBlock
    rw [splitNl_joinNl L hLne
      (fun ln hln => by obtain ⟨c, t, -, -, hnl⟩ := hshape ln hln; exact hnl)]
    have hpr := processLines_render M [] "" none hcan
      (by intro p hp q hq; rw [flushArr_none] at hq; simp at hq)
    rw [flushArr_none] at hpr
    rw [hL]
    exact hpr
  rw [hparse]

/-- C1 (amended): for every non-empty canonical map (distinct word keys;
boolean, exact-integer, plain-string or plain-item-list values) and every
body, extracting the serialized block prepended to the body yields exactly
the original map and body. -/
theorem extract_serialize_roundtrip (M : FmMap) (body : String)
    (hcan : canonicalMap M) (hne : M ≠ []) :
    extractContent (frontmatterBlock M ++ body) = ⟨body, M⟩ :=
  extract_frontmatterBlock M body hcan hne

/-- Witness: the round-trip theorem applied to a concrete canonical map
with all four value kinds and a concrete body. -/
theorem extract_serialize_roundtrip_witness :
    canonicalMap [("id", FmValue.num (.fin 7)), ("status", FmValue.str "draft"),
      ("tags", FmValue.list ["a", "b"]), ("flag", FmValue.bool true)] ∧
    ([("id", FmValue.num (.fin 7)), ("status", FmValue.str "draft"),
      ("tags", FmValue.list ["a", "b"]), ("flag", FmValue.bool true)] : FmMap) ≠ [] ∧
    extractContent (frontmatterBlock
        [("id", FmValue.num (.fin 7)), ("status", FmValue.str "draft"),
         ("tags", FmValue.list ["a", "b"]), ("flag", FmValue.bool true)] ++ "Hello **world**") =
      ⟨"Hello **world**",
       [("id", FmValue.num (.fin 7)), ("status", FmValue.str "draft"),
        ("tags", FmValue.list ["a", "b"]), ("flag", FmValue.bool true)]⟩ :=
  ⟨by decide, by decide,
   extract_serialize_roundtrip _ "Hello **world**" (by decide) (by decide)⟩

/-- C6 (amended): double merge with disjoint update maps equals a single
merge of the concatenated updates, provided the first merged map is
non-empty and canonical so that its serialization re-extracts exactly. -/
theorem merge_merge_compose (text : String) (U1 U2 : FmMap)
    (hcan : canonicalMap (mergeMap (extractContent text).frontmatter U1))
    (hne : mergeMap (extractContent text).frontmatter U1 ≠ [])
    (hdisj : ∀ k ∈ U1.map Prod.fst, k ∉ U2.map Prod.fst) :
    updateFrontmatter (updateFrontmatter text U1) U2 =
      updateFrontmatter text (U1 ++ U2) := by
  have hextract := extract_frontmatterBlock
    (mergeMap (extractContent text).frontmatter U1) (extractContent text).content hcan hne
  rw [updateFrontmatter_eq text U1, updateFrontmatter_eq _ U2, hextract,
    updateFrontmatter_eq text (U1 ++ U2)]
  have hassoc : mergeMap (extractContent text).frontmatter (U1 ++ U2) =
      mergeMap (mergeMap (extractContent text).frontmatter U1) U2 := by
    unfold mergeMap
    rw [List.foldl_append]
  rw [hassoc]

/-- Witness: composing two disjoint merges on a concrete document. -/
theorem merge_merge_compose_witness :
    canonicalMap (mergeMap (extractContent "---\na: x\n---\nbody").frontmatter
      [("b", FmValue.num (.fin 2))]) ∧
    mergeMap (extractContent "---\na: x\n---\nbody").frontmatter
      [("b", FmValue.num (.fin 2))] ≠ [] ∧
    (∀ k ∈ ([("b", FmValue.num (.fin 2))] : FmMap).map Prod.fst,
      k ∉ ([("c", FmValue.bool true)] : FmMap).map Prod.fst) ∧
    updateFrontmatter (updateFrontmatter "---\na: x\n---\nbody"
        [("b", FmValue.num (.fin 2))]) [("c", FmValue.bool true)] =
      updateFrontmatter "---\na: x\n---\nbody"
        ([("b", FmValue.num (.fin 2))] ++ [("c", FmValue.bool true)]) :=
  ⟨by decide, by decide, by decide,
   merge_merge_compose "---\na: x\n---\nbody" _ _ (by decide) (by decide) (by decide)⟩

/-- A line that matches the array-item pattern cannot match the
key/value pattern. -/
theorem arrayItem_not_keyValue {line : List Char} (h : matchArrayItem line ≠ none) :
    matchKeyValue line = none := by
  unfold matchArrayItem at h
  cases hl : line with
  | nil => rw [hl] at h; simp at h
  | cons c t =>
    rw [hl] at h
    by_cases hcs : isJsSpace c = true
    · exact matchKeyValue_space_head t hcs
    · exfalso
      apply h
      have hw : (c :: t).takeWhile isJsSpace = [] := by
        simp [List.takeWhile_cons, hcs]
      rw [hw]
      simp

/-- C9: an item line that arrives while no list is pending is discarded
with no effect at all: parsing the block with the line equals parsing the
block without it. -/
theorem orphan_item_discarded (pre post : List (List Char)) (item : List Char)
    (hpend : (processLines ⟨[], "", none⟩ pre).curArr = none)
    (hitem : matchArrayItem item ≠ none) :
    flushArr (processLines ⟨[], "", none⟩ (pre ++ item :: post)) =
      flushArr (processLines ⟨[], "", none⟩ (pre ++ post)) := by
  have hstep : ∀ s : PState, s.curArr = none → processLine s item = s := by
    intro s hs
    obtain ⟨m, ck, arr⟩ := s
    simp only at hs
    subst hs
    unfold processLine
    rw [arrayItem_not_keyValue hitem]
    cases ha : matchArrayItem item with
    | none => rfl
    | some it => rfl
  unfold processLines
  rw [List.foldl_append, List.foldl_append, List.foldl_cons]
  rw [hstep (List.foldl processLine ⟨[], "", none⟩ pre) hpend]

/-- Witness: an orphan item line after a scalar key line is dropped. -/
theorem orphan_item_discarded_witness :
    (processLines ⟨[], "", none⟩ ["a: 1".data]).curArr = none ∧
    matchArrayItem "  - x".data ≠ none ∧
    flushArr (processLines ⟨[], "", none⟩ (["a: 1".data] ++ "  - x".data :: [])) =
      flushArr (processLines ⟨[], "", none⟩ (["a: 1".data] ++ [])) :=
  ⟨by decide, by decide,
   orphan_item_discarded ["a: 1".data] [] "  - x".data (by decide) (by decide)⟩

/-- C8: when the anchored frontmatter pattern does not match, the whole
text is the body and the map is empty; and scalar coercion is total on
non-empty values, mapping each to exactly one of boolean (the literals
first), number (when the Number coercion is not NaN), or quote-stripped
string. -/
theorem no_frontmatter_degrades_and_coercion_total :
    (∀ text : String, hasFrontmatter text = false → extractContent text = ⟨text, []⟩) ∧
    (∀ v : List Char, v ≠ [] →
      (v = "true".data ∧ coerceScalar v = .bool true) ∨
      (v = "false".data ∧ coerceScalar v = .bool false) ∨
      (v ≠ "true".data ∧ v ≠ "false".data ∧
        ∃ j, jsParseNumber v = some j ∧ coerceScalar v = .num j) ∨
      (v ≠ "true".data ∧ v ≠ "false".data ∧ jsParseNumber v = none ∧
        coerceScalar v = .str ⟨stripQuotes v⟩)) := by
  constructor
  · intro text h
    unfold hasFrontmatter at h
    unfold extractContent
    cases hs : splitFrontmatter text.data with
    | none => rfl
    | some p =>
      rw [hs] at h
      simp at h
  · intro v _
    by_cases h1 : v = "true".data
    · refine Or.inl ⟨h1, ?_⟩
      unfold coerceScalar
      rw [if_pos h1]
    · by_cases h2 : v = "false".data
      · refine Or.inr (Or.inl ⟨h2, ?_⟩)
        unfold coerceScalar
        rw [if_neg h1, if_pos h2]
      · cases hj : jsParseNumber v with
        | some j =>
          refine Or.inr (Or.inr (Or.inl ⟨h1, h2, j, rfl, ?_⟩))
          unfold coerceScalar
          rw [if_neg h1, if_neg h2, hj]
        | none =>
          refine Or.inr (Or.inr (Or.inr ⟨h1, h2, rfl, ?_⟩))
          unfold coerceScalar
          rw [if_neg h1, if_neg h2, hj]

/-- Witness: the degrade case on a plain document and the coercion cases
on four concrete values. -/
theorem no_frontmatter_degrades_witness :
    (hasFrontmatter "just a note" = false ∧
      extractContent "just a note" = ⟨"just a note", []⟩) ∧
    ("draft".data ≠ [] ∧
      (("draft".data = "true".data ∧ coerceScalar "draft".data = .bool true) ∨
       ("draft".data = "false".data ∧ coerceScalar "draft".data = .bool false) ∨
       ("draft".data ≠ "true".data ∧ "draft".data ≠ "false".data ∧
         ∃ j, jsParseNumber "draft".data = some j ∧
           coerceScalar "draft".data = .num j) ∨
       ("draft".data ≠ "true".data ∧ "draft".data ≠ "false".data ∧
         jsParseNumber "draft".data = none ∧
         coerceScalar "draft".data = .str ⟨stripQuotes "draft".data⟩))) :=
  ⟨⟨by decide, no_frontmatter_degrades_and_coercion_total.1 "just a note" (by decide)⟩,
   ⟨by decide, no_frontmatter_degrades_and_coercion_total.2 "draft".data (by decide)⟩⟩

/-- Lookup after in-place replacement of a different key. -/
theorem lookup_map_replace_ne (m : FmMap) {k k2 : String} (v : FmValue)
    (h : k2 ≠ k) :
    (m.map (fun p => if p.1 = k2 then (k2, v) else p)).lookup k = m.lookup k := by
  induction m with
  | nil => rfl
  | cons p t ih =>
    obtain ⟨a, b⟩ := p
    rw [List.map_cons]
    by_cases hp : (a, b).1 = k2
    · simp only at hp
      subst hp
      rw [if_pos rfl]
      have hka : (k == a) = false := beq_eq_false_iff_ne.mpr (Ne.symm h)
      simp only [List.lookup, hka]
      exact ih
    · rw [if_neg hp]
      simp only [List.lookup]
      cases k == a with
      | true => rfl
      | false => exact ih

/-- Lookup after appending an entry with a different key. -/
theorem lookup_append_single_ne (m : FmMap) {k k2 : String} (v : FmValue)
    (h : k2 ≠ k) : (m ++ [(k2, v)]).lookup k = m.lookup k := by
  induction m with
  | nil =>
    simp [List.lookup, beq_eq_false_iff_ne.mpr (Ne.symm h)]
  | cons p t ih =>
    obtain ⟨a, b⟩ := p
    simp only [List.cons_append, List.lookup]
    cases k == a with
    | true => rfl
    | false => exact ih

/-- Assigning a different key does not change lookup of a key. -/
theorem lookup_objAssign_ne (m : FmMap) {k k2 : String} (v : FmValue)
    (h : k2 ≠ k) : (objAssign m k2 v).lookup k = m.lookup k := by
  unfold objAssign
  by_cases ha : (m.any fun p => p.1 = k2) = true
  · rw [if_pos ha]
    exact lookup_map_replace_ne m v h
  · rw [if_neg ha]
    exact lookup_append_single_ne m v h

/-- Assigning a key makes lookup of that key return the value. -/
theorem lookup_objAssign_self (m : FmMap) (k : String) (v : FmValue) :
    (objAssign m k v).lookup k = some v := by
  unfold objAssign
  by_cases h : (m.any fun p => p.1 = k) = true
  · rw [if_pos h]
    induction m with
    | nil => simp at h
    | cons p t ih =>
      rw [List.map_cons]
      by_cases hp : p.1 = k
      · rw [if_pos hp]
        simp [List.lookup]
      · rw [if_neg hp]
        have ht : (t.any fun p => p.1 = k) = true := by
          rcases List.any_eq_true.mp h with ⟨q, hq, he⟩
          rcases List.mem_cons.mp hq with h1 | h1
          · subst h1
            exact absurd (of_decide_eq_true he) hp
          · exact List.any_eq_true.mpr ⟨q, h1, he⟩
        obtain ⟨a, b⟩ := p
        have hka : (k == a) = false :=
          beq_eq_false_iff_ne.mpr (fun he => hp (by simpa using he.symm))
        simp only [List.lookup, hka]
        exact ih ht
  · rw [if_neg h]
    have hnot : ∀ p ∈ m, p.1 ≠ k := by
      intro p hp hc
      exact h (List.any_eq_true.mpr ⟨p, hp, by simpa using hc⟩)
    clear h
    induction m with
    | nil => simp [List.lookup]
    | cons p t ih =>
      obtain ⟨a, b⟩ := p
      have hka : (k == a) = false :=
        beq_eq_false_iff_ne.mpr
          (fun he => hnot (a, b) (List.mem_cons_self _ _) (by simpa using he.symm))
      simp only [List.cons_append, List.lookup, hka]
      exact ih (fun q hq => hnot q (List.mem_cons_of_mem _ hq))

/-- Flushing under a different current key does not change lookup. -/
theorem lookup_flushArr_ne {s : PState} {k : String} (h : s.curKey ≠ k) :
    (flushArr s).lookup k = s.map.lookup k := by
  obtain ⟨m, ck, arr⟩ := s
  cases arr with
  | none => rfl
  | some a =>
    simp only at h
    by_cases hck : ck ≠ ""
    · rw [flushArr_some _ _ _ hck]
      exact lookup_objAssign_ne m (.list a) h
    · have he : ck = "" := not_not.mp hck
      subst he
      have hfl : flushArr ⟨m, "", some a⟩ = m := by
        unfold flushArr
        simp
      rw [hfl]

/-- Processing lines none of whose key lines carry the given key leaves
lookup of that key unchanged, provided the current key also differs. -/
theorem lookup_processLines_ne (k : String) (lines : List (List Char))
    (hkeys : ∀ ln ∈ lines, ∀ p, matchKeyValue ln = some p → (⟨p.1⟩ : String) ≠ k) :
    ∀ (m : FmMap) (ck : String) (arr : Option (List String)), ck ≠ k →
    (flushArr (processLines ⟨m, ck, arr⟩ lines)).lookup k = m.lookup k := by
  induction lines with
  | nil =>
    intro m ck arr hck
    exact lookup_flushArr_ne hck
  | cons ln rest ih =>
    intro m ck arr hck
    have hkeys' : ∀ ln2 ∈ rest, ∀ p, matchKeyValue ln2 = some p → (⟨p.1⟩ : String) ≠ k :=
      fun ln2 h2 => hkeys ln2 (List.mem_cons_of_mem _ h2)
    show (flushArr (processLines (processLine ⟨m, ck, arr⟩ ln) rest)).lookup k = _
    cases hkv : matchKeyValue ln with
    | some p =>
      obtain ⟨kd, vd⟩ := p
      have hk2 : (⟨kd⟩ : String) ≠ k := hkeys ln (List.mem_cons_self _ _) (kd, vd) hkv
      have hstep : processLine ⟨m, ck, arr⟩ ln =
          if vd = [] then ⟨flushArr ⟨m, ck, arr⟩, ⟨kd⟩, some []⟩
          else ⟨objAssign (flushArr ⟨m, ck, arr⟩) ⟨kd⟩ (coerceScalar vd), ⟨kd⟩, none⟩ := by
        unfold processLine
        rw [hkv]
      by_cases hvd : vd = []
      · rw [hstep, if_pos hvd]
        rw [ih hkeys' _ _ _ hk2]
        exact lookup_flushArr_ne hck
      · rw [hstep, if_neg hvd]
        rw [ih hkeys' _ _ _ hk2]
        rw [lookup_objAssign_ne _ _ hk2]
        exact lookup_flushArr_ne hck
    | none =>
      have hstep : ∃ arr2, processLine ⟨m, ck, arr⟩ ln = ⟨m, ck, arr2⟩ := by
        unfold processLine
        rw [hkv]
        cases matchArrayItem ln with
        | none => exact ⟨arr, rfl⟩
        | some it =>
          cases arr with
          | none => exact ⟨none, rfl⟩
          | some a => exact ⟨some (a ++ [⟨stripQuotes it⟩]), rfl⟩
      obtain ⟨arr2, ha2⟩ := hstep
      rw [ha2]
      exact ih hkeys' _ _ _ hck

/-- After a bare key line, in the absence of item lines before the next
key line and of any reuse of the key, the key ends bound to the empty
list. -/
theorem lookup_after_empty_key (k : String) (hk : k ≠ "") :
    ∀ (post : List (List Char)),
    (∀ ln ∈ post.takeWhile (fun l => (matchKeyValue l).isNone), matchArrayItem ln = none) →
    (∀ ln ∈ post, ∀ p, matchKeyValue ln = some p → (⟨p.1⟩ : String) ≠ k) →
    ∀ A : FmMap,
    (flushArr (processLines ⟨A, k, some []⟩ post)).lookup k = some (.list []) := by
  intro post
  induction post with
  | nil =>
    intro _ _ A
    show (flushArr ⟨A, k, some []⟩).lookup k = _
    rw [flushArr_some _ _ _ hk]
    exact lookup_objAssign_self A k (.list [])
  | cons ln rest ih =>
    intro hitems hkeys A
    show (flushArr (processLines (processLine ⟨A, k, some []⟩ ln) rest)).lookup k = _
    cases hkv : matchKeyValue ln with
    | none =>
      have hmem : ln ∈ (ln :: rest).takeWhile (fun l => (matchKeyValue l).isNone) := by
        rw [List.takeWhile_cons, if_pos (by simp [hkv])]
        exact List.mem_cons_self _ _
      have hai : matchArrayItem ln = none := hitems ln hmem
      have hstep : processLine ⟨A, k, some []⟩ ln = ⟨A, k, some []⟩ := by
        unfold processLine
        rw [hkv, hai]
      rw [hstep]
      refine ih ?_ (fun ln2 h2 => hkeys ln2 (List.mem_cons_of_mem _ h2)) A
      intro ln2 h2
      refine hitems ln2 ?_
      rw [List.takeWhile_cons, if_pos (by simp [hkv])]
      exact List.mem_cons_of_mem _ h2
    | some p =>
      obtain ⟨kd, vd⟩ := p
      have hk2 : (⟨kd⟩ : String) ≠ k := hkeys ln (List.mem_cons_self _ _) (kd, vd) hkv
      have hkeys' : ∀ ln2 ∈ rest, ∀ p, matchKeyValue ln2 = some p → (⟨p.1⟩ : String) ≠ k :=
        fun ln2 h2 => hkeys ln2 (List.mem_cons_of_mem _ h2)
      have hflush : flushArr ⟨A, k, some []⟩ = objAssign A k (.list []) :=
        flushArr_some _ _ _ hk
      have hstep : processLine ⟨A, k, some []⟩ ln =
          if vd = [] then ⟨objAssign A k (.list []), ⟨kd⟩, some []⟩
          else ⟨objAssign (objAssign A k (.list [])) ⟨kd⟩ (coerceScalar vd), ⟨kd⟩, none⟩ := by
        unfold processLine
        rw [hkv]
        rw [show (flushArr ⟨A, k, some []⟩) = objAssign A k (.list []) from hflush]
      by_cases hvd : vd = []
      · rw [hstep, if_pos hvd]
        rw [lookup_processLines_ne k rest hkeys' _ _ _ hk2]
        exact lookup_objAssign_self A k (.list [])
      · rw [hstep, if_neg hvd]
        rw [lookup_processLines_ne k rest hkeys' _ _ _ hk2]
        rw [lookup_objAssign_ne _ _ hk2]
        exact lookup_objAssign_self A k (.list [])

/-- A matched key is a non-empty string. -/
theorem matchKeyValue_key_ne_nil {line kd vd : List Char}
    (h : matchKeyValue line = some (kd, vd)) : kd ≠ [] := by
  unfold matchKeyValue at h
  by_cases hk : line.takeWhile isWordChar = []
  · rw [if_pos hk] at h
    simp at h
  · rw [if_neg hk] at h
    split at h
    · split at h
      · simp only [Option.some.injEq, Prod.mk.injEq] at h
        intro hc
        exact hk (by rw [h.1, hc])
      · split at h
        · simp only [Option.some.injEq, Prod.mk.injEq] at h
          intro hc
          exact hk (by rw [h.1, hc])
        · simp at h
    · simp at h

/-- C4 (amended): a key line with an empty value that is never followed by
an item line before the next key line, and whose key no later key line
reuses, ends up bound to the EMPTY LIST in the parsed map (not dropped):
the truthiness flush guard accepts an empty pending array. -/
theorem empty_key_maps_to_empty_list (pre post : List (List Char)) (L : List Char)
    (k : String)
    (hline : matchKeyValue L = some (k.data, []))
    (hitems : ∀ ln ∈ post.takeWhile (fun l => (matchKeyValue l).isNone),
      matchArrayItem ln = none)
    (hkeys : ∀ ln ∈ post, ∀ p, matchKeyValue ln = some p → (⟨p.1⟩ : String) ≠ k) :
    (flushArr (processLines ⟨[], "", none⟩ (pre ++ L :: post))).lookup k =
      some (FmValue.list []) := by
  have hkne : k ≠ "" := by
    have hnn := matchKeyValue_key_ne_nil hline
    intro hc
    subst hc
    exact hnn rfl
  have hstep : ∀ s : PState, processLine s L = ⟨flushArr s, k, some []⟩ := by
    intro s
    obtain ⟨m, ck, arr⟩ := s
    unfold processLine
    rw [hline]
    rfl
  unfold processLines
  rw [List.foldl_append, List.foldl_cons]
  rw [hstep]
  have hfin := lookup_after_empty_key k hkne post hitems hkeys
    (flushArr (List.foldl processLine ⟨[], "", none⟩ pre))
  unfold processLines at hfin
  exact hfin

/-- Witness: a bare wp_tags key line between two scalar key lines maps to
the empty list. -/
theorem empty_key_maps_to_empty_list_witness :
    matchKeyValue "wp_tags:".data = some ("wp_tags".data, []) ∧
    (∀ ln ∈ ["y: 2".data].takeWhile (fun l => (matchKeyValue l).isNone),
      matchArrayItem ln = none) ∧
    (∀ ln ∈ ["y: 2".data], ∀ p, matchKeyValue ln = some p →
      (⟨p.1⟩ : String) ≠ "wp_tags") ∧
    (flushArr (processLines ⟨[], "", none⟩
        (["x: 1".data] ++ "wp_tags:".data :: ["y: 2".data]))).lookup "wp_tags" =
      some (FmValue.list []) :=
  ⟨by decide, by decide, by decide,
   empty_key_maps_to_empty_list ["x: 1".data] ["y: 2".data] "wp_tags:".data "wp_tags"
     (by decide) (by decide) (by decide)⟩

/-- scanReplF is the identity when the matcher fails on every non-empty
suffix. -/
theorem scanReplF_id (f : List Char → Option (List Char × ℕ)) :
    ∀ (fu : ℕ) (l : List Char),
    (∀ c cs, (c :: cs) <:+ l → f (c :: cs) = none) → scanReplF f fu l = l := by
  intro fu
  induction fu with
  | zero => intro l _; cases l <;> rfl
  | succ fu ih =>
    intro l h
    cases l with
    | nil => rfl
    | cons c cs =>
      show scanReplF f (fu + 1) (c :: cs) = c :: cs
      unfold scanReplF
      rw [h c cs (List.suffix_refl _)]
      rw [ih cs (fun c2 cs2 hs => h c2 cs2 (hs.trans (List.suffix_cons c cs)))]

/-- scanRepl is the identity when the matcher fails on every non-empty
suffix. -/
theorem scanRepl_id (f : List Char → Option (List Char × ℕ)) (l : List Char)
    (h : ∀ c cs, (c :: cs) <:+ l → f (c :: cs) = none) : scanRepl f l = l :=
  scanReplF_id f l.length l h

/-- A suffix of a replicate is a replicate. -/
theorem suffix_replicate {s : List Char} {n : ℕ} {c0 : Char}
    (h : s <:+ List.replicate n c0) : s = List.replicate s.length c0 :=
  List.eq_replicate.mpr ⟨rfl, fun b hb => List.eq_of_mem_replicate (h.subset hb)⟩

/-- A delimiter matcher whose delimiter does not start with a dash fails
on a dash-headed string. -/
theorem matchDelim_dash (d ot ct : List Char) (c0 : Char) (t0 : List Char)
    (hd : d = c0 :: t0) (hne : c0 ≠ '-') (cs : List Char) :
    matchDelim d ot ct ('-' :: cs) = none := by
  unfold matchDelim
  rw [hd]
  rw [show ((c0 :: t0).isPrefixOf ('-' :: cs)) = false by
    simp [List.isPrefixOf, beq_eq_false_iff_ne, hne]]
  simp

/-- scanRepl with such a delimiter matcher leaves a dash line unchanged. -/
theorem scanRepl_delim_dashes (d ot ct : List Char) (c0 : Char) (t0 : List Char)
    (hd : d = c0 :: t0) (hne : c0 ≠ '-') (n : ℕ) :
    scanRepl (matchDelim d ot ct) (List.replicate n '-') = List.replicate n '-' := by
  apply scanRepl_id
  intro c cs hsuf
  have := suffix_replicate hsuf
  have hc : c = '-' := by
    have h0 := congrArg List.head? this
    simpa [List.replicate_succ] using h0
  subst hc
  exact matchDelim_dash d ot ct c0 t0 hd hne cs

/-- Dash lines pass through the inline-code matcher. -/
theorem scanRepl_code_dashes (n : ℕ) :
    scanRepl matchInlineCode (List.replicate n '-') = List.replicate n '-' := by
  apply scanRepl_id
  intro c cs hsuf
  have hc : c = '-' := by
    have h0 := congrArg List.head? (suffix_replicate hsuf)
    simpa [List.replicate_succ] using h0
  subst hc
  simp [matchInlineCode, show ('-' = btick) = False from eq_false (by decide)]

/-- Dash lines pass through the fenced-block matcher. -/
theorem scanRepl_fence_dashes (n : ℕ) :
    scanRepl matchCodeBlock (List.replicate n '-') = List.replicate n '-' := by
  apply scanRepl_id
  intro c cs hsuf
  have hc : c = '-' := by
    have h0 := congrArg List.head? (suffix_replicate hsuf)
    simpa [List.replicate_succ] using h0
  subst hc
  unfold matchCodeBlock
  rw [show (([btick, btick, btick]).isPrefixOf ('-' :: cs)) = false by
    simp [List.isPrefixOf, show (btick == '-') = false from by decide]]
  simp

/-- A literal matcher whose pattern head differs fails. -/
theorem matchLit_head_ne (pat rep : List Char) {c c0 : Char} (cs : List Char)
    (hh : pat.head? = some c0) (hne : c0 ≠ c) :
    matchLit pat rep (c :: cs) = none := by
  cases pat with
  | nil => simp at hh
  | cons p pt =>
    have hp : p = c0 := by simpa using hh
    subst hp
    unfold matchLit
    rw [show ((p :: pt).isPrefixOf (c :: cs)) = false by
      simp [List.isPrefixOf, show (p == c) = false from beq_eq_false_iff_ne.mpr hne]]
    simp

/-- Dash lines pass through the blockquote-merge matcher. -/
theorem scanRepl_bqmerge_dashes (n : ℕ) :
    scanRepl (matchLit "</blockquote>\n<blockquote>".data "\n".data)
      (List.replicate n '-') = List.replicate n '-' := by
  apply scanRepl_id
  intro c cs hsuf
  have hc : c = '-' := by
    have h0 := congrArg List.head? (suffix_replicate hsuf)
    simpa [List.replicate_succ] using h0
  subst hc
  exact matchLit_head_ne _ _ cs
    (show "</blockquote>\n<blockquote>".data.head? = some '<' by decide)
    (show '<' ≠ '-' by decide)

/-- A newline-free string is a single line for a line-mapped pass. -/
theorem lineMapPass_no_nl (g : List Char → List Char) {l : List Char}
    (h : '\n' ∉ l) : lineMapPass g l = g l := by
  unfold lineMapPass
  rw [splitNl_no_nl h]
  rfl

/-- Header line rewriting ignores a dash-headed line. -/
theorem headerLine_dash (k : ℕ) (hk : 0 < k) (ot ct : List Char) (r : List Char) :
    headerLine k ot ct ('-' :: r) = '-' :: r := by
  obtain ⟨k2, rfl⟩ : ∃ k2, k = k2 + 1 := ⟨k - 1, by omega⟩
  unfold headerLine
  rw [show ((List.replicate (k2 + 1) '#').isPrefixOf ('-' :: r)) = false by
    simp [List.replicate_succ, List.isPrefixOf,
      show ('#' == '-') = false from by decide]]
  simp

/-- Blockquote line rewriting ignores a dash-headed line. -/
theorem bqLine_dash (r : List Char) : bqLine ('-' :: r) = '-' :: r := rfl

/-- A line of three or more dashes becomes the rule element. -/
theorem hrLine_dashes (m : ℕ) :
    hrLine (List.replicate (m + 3) '-') = "<hr>".data := by
  unfold hrLine
  rw [if_pos]
  rw [Bool.and_eq_true]
  constructor
  · simp
  · rw [Bool.or_eq_true]
    left
    rw [Bool.or_eq_true]
    left
    rw [List.all_eq_true]
    intro c hc
    simp [List.eq_of_mem_replicate hc]

/-- C5 (amended): an input consisting of a single line of three or more
dashes transduces to the rule element (asterisk and underscore lines are
instead consumed by the emphasis passes, as the counterexample shows). -/
theorem hr_dashes (n : ℕ) (h : 3 ≤ n) :
    markdownToHtml ⟨List.replicate n '-'⟩ = "<hr>" := by
  obtain ⟨m, rfl⟩ : ∃ m, n = m + 3 := ⟨n - 3, by omega⟩
  have hnl : '\n' ∉ List.replicate (m + 3) '-' := by
    intro hm
    exact absurd (List.eq_of_mem_replicate hm) (by decide)
  have hrep : List.replicate (m + 3) '-' = '-' :: List.replicate (m + 2) '-' := by
    rw [List.replicate_succ]
  unfold markdownToHtml mdPipeline
  dsimp only []
  rw [lineMapPass_no_nl _ hnl, hrep, headerLine_dash 6 (by omega), ← hrep]
  rw [lineMapPass_no_nl _ hnl, hrep, headerLine_dash 5 (by omega), ← hrep]
  rw [lineMapPass_no_nl _ hnl, hrep, headerLine_dash 4 (by omega), ← hrep]
  rw [lineMapPass_no_nl _ hnl, hrep, headerLine_dash 3 (by omega), ← hrep]
  rw [lineMapPass_no_nl _ hnl, hrep, headerLine_dash 2 (by omega), ← hrep]
  rw [lineMapPass_no_nl _ hnl, hrep, headerLine_dash 1 (by omega), ← hrep]
  rw [scanRepl_delim_dashes "***".data _ _ '*' _ rfl (by decide)]
  rw [scanRepl_delim_dashes "**".data _ _ '*' _ rfl (by decide)]
  rw [scanRepl_delim_dashes "*".data _ _ '*' _ rfl (by decide)]
  rw [scanRepl_delim_dashes "___".data _ _ '_' _ rfl (by decide)]
  rw [scanRepl_delim_dashes "__".data _ _ '_' _ rfl (by decide)]
  rw [scanRepl_delim_dashes "_".data _ _ '_' _ rfl (by decide)]
  rw [scanRepl_delim_dashes "~~".data _ _ '~' _ rfl (by decide)]
  rw [scanRepl_code_dashes, scanRepl_fence_dashes]
  rw [lineMapPass_no_nl _ hnl, hrep, bqLine_dash, ← hrep]
  rw [scanRepl_bqmerge_dashes]
  rw [lineMapPass_no_nl _ hnl, hrLine_dashes]
  decide

/-- Witness: five dashes become a rule. -/
theorem hr_dashes_witness : 3 ≤ 5 ∧ markdownToHtml ⟨List.replicate 5 '-'⟩ = "<hr>" :=
  ⟨by decide, hr_dashes 5 (by decide)⟩
